import Mathlib

/-!
Verification of the manifest generation / verification / tree-minimization
core of `populate-depot.py` (subprojects/container-runtime) and its
verifier contract (tests/pressure-vessel/verify.py).

Python strings are modelled as lists of Unicode code points (`Name`),
which also accommodates the `surrogateescape` code points U+DC80..U+DCFF
that `Char` cannot represent.  Byte strings are lists of naturals < 256.
-/

/-- A Python `str` value: a list of Unicode code points (possibly including
surrogate-escape code points U+DC80..U+DCFF used by `os.fsdecode`). -/
abbrev Name := List Nat

namespace PopulateDepot

/-- The safe set of `_NEEDS_OCTAL_ESCAPE = re.compile(r'[^-A-Za-z0-9+,./:@_]')`:
code points (equivalently ASCII bytes) that are NOT escaped. -/
def isSafeByte (b : Nat) : Bool :=
  (45 = b) ||                      -- '-'
  (65 ≤ b && b ≤ 90) ||            -- 'A'..'Z'
  (97 ≤ b && b ≤ 122) ||           -- 'a'..'z'
  (48 ≤ b && b ≤ 57) ||            -- '0'..'9'
  (b = 43) || (b = 44) || (b = 46) || (b = 47) || (b = 58) || (b = 64) ||
  (b = 95)                          -- '+' ',' '.' '/' ':' '@' '_'

/-- One byte rendered as `'\\%03o' % byte`: a backslash (92) followed by
exactly three octal digit characters. -/
def escByte (b : Nat) : List Nat :=
  [92, 48 + b / 64 % 8, 48 + b / 8 % 8, 48 + b % 8]

/-- UTF-8 encoding of one code point, with Python's `surrogateescape`
handler: U+DC80..U+DCFF decodes back to the single raw byte it came from.
(Only defined meaningfully for valid inputs; see `validChar`.) -/
def utf8se (c : Nat) : List Nat :=
  if 0xDC80 ≤ c && c ≤ 0xDCFF then [c - 0xDC00]
  else if c < 0x80 then [c]
  else if c < 0x800 then [0xC0 + c / 64, 0x80 + c % 64]
  else if c < 0x10000 then [0xE0 + c / 4096, 0x80 + c / 64 % 64, 0x80 + c % 64]
  else [0xF0 + c / 262144, 0x80 + c / 4096 % 64, 0x80 + c / 64 % 64, 0x80 + c % 64]

/-- A code point a Python `str` produced by `os.fsdecode` can contain:
a scalar value, or a surrogate escape U+DC80..U+DCFF. -/
def validChar (c : Nat) : Bool :=
  (c < 0xD800 || (0xDC80 ≤ c && c ≤ 0xDCFF) || (0xE000 ≤ c)) && c < 0x110000

/-- `Main.octal_escape_char`: the bytes of the matched character, each
rendered as a backslash-octal escape. -/
def octal_escape_char (c : Nat) : List Nat :=
  (utf8se c).flatMap escByte

/-- `Main.octal_escape`: every character outside the safe set
`[-A-Za-z0-9+,./:@_]` is replaced by the octal escapes of its bytes;
safe characters are kept as they are. -/
def octal_escape (s : Name) : Name :=
  s.flatMap (fun c => if isSafeByte c then [c] else octal_escape_char c)

/-- The byte-level transform the spec describes: every byte outside the safe
set is rendered as a backslash-octal escape, every safe byte is unchanged.
(Claim-side definition, to be compared with the source's per-character
`octal_escape`.) -/
def perByteEscape (bs : List Nat) : List Nat :=
  bs.flatMap (fun b => if isSafeByte b then [b] else escByte b)

/-- Encode a Python string to its raw bytes, UTF-8 with `surrogateescape`. -/
def encodeBytes (s : Name) : List Nat :=
  s.flatMap utf8se

/-- Decoder for the escaped form: a backslash introduces exactly three octal
digits which denote one raw byte; anything else stands for itself. -/
def unescapeBytes : List Nat → Option (List Nat)
  | [] => some []
  | b :: rest =>
      if b = 92 then
        match rest with
        | d1 :: d2 :: d3 :: rest2 =>
            if 48 ≤ d1 && d1 ≤ 55 && 48 ≤ d2 && d2 ≤ 55 && 48 ≤ d3 && d3 ≤ 55 then
              (fun r => ((d1 - 48) * 64 + (d2 - 48) * 8 + (d3 - 48)) :: r) <$>
                unescapeBytes rest2
            else none
        | _ => none
      else (b :: ·) <$> unescapeBytes rest

/-- `Main.filename_is_windows_friendly`: `False` iff the string contains one
of the raw-string characters `<>:"\|?*` (note: the set includes the
backslash) or a surrogate-escape code point U+DC80..U+DCFF. -/
def filename_is_windows_friendly (s : Name) : Bool :=
  s.all (fun c =>
    !(c = 60 || c = 62 || c = 58 || c = 34 || c = 92 || c = 124 || c = 63 || c = 42) &&
    !(0xDC80 ≤ c && c ≤ 0xDCFF))

/-- The character set the claim names for Windows-unfriendliness:
`< > : " | ? *` (no backslash) or a surrogate escape.  (Claim-side
definition, compared against `filename_is_windows_friendly`.) -/
def claimWindowsBad (c : Nat) : Bool :=
  (c = 60 || c = 62 || c = 58 || c = 34 || c = 124 || c = 63 || c = 42) ||
  (0xDC80 ≤ c && c ≤ 0xDCFF)

/-- A byte in the safe set is an ASCII byte, in particular at most 122. -/
theorem isSafeByte_le (b : Nat) (h : isSafeByte b = true) : b ≤ 122 := by
  simp only [isSafeByte, Bool.or_eq_true, Bool.and_eq_true, decide_eq_true_eq] at h
  omega

/-- Every byte of the UTF-8 encoding of a valid code point is below 256. -/
theorem utf8se_lt (c : Nat) (h : validChar c = true) : ∀ b ∈ utf8se c, b < 256 := by
  simp only [validChar, Bool.and_eq_true, Bool.or_eq_true, decide_eq_true_eq] at h
  unfold utf8se
  split
  case isTrue hc =>
    intro b hb; simp only [List.mem_singleton] at hb
    simp only [Bool.and_eq_true, decide_eq_true_eq] at hc
    omega
  case isFalse hc =>
    split
    case isTrue h2 => intro b hb; simp only [List.mem_singleton] at hb; omega
    case isFalse h2 =>
      split
      case isTrue h3 =>
        intro b hb
        simp only [List.mem_cons, List.mem_singleton] at hb
        rcases hb with rfl | rfl | h <;> first | omega | cases h
      case isFalse h3 =>
        split
        case isTrue h4 =>
          intro b hb
          simp only [List.mem_cons, List.mem_singleton] at hb
          rcases hb with rfl | rfl | rfl | h <;> first | omega | cases h
        case isFalse h4 =>
          intro b hb
          simp only [List.mem_cons, List.mem_singleton] at hb
          have : c / 262144 < 68 := by omega
          rcases hb with rfl | rfl | rfl | rfl | h <;> first | omega | cases h

/-- A byte at 123 or above (in particular any non-ASCII byte) is not safe. -/
theorem isSafeByte_false_of_ge (b : Nat) (h : 123 ≤ b) : isSafeByte b = false := by
  rw [Bool.eq_false_iff]
  intro hb
  have := isSafeByte_le b hb
  omega

/-- If an unsafe valid character is UTF-8 encoded, every resulting byte is
itself unsafe (its escape therefore commutes with encoding). -/
theorem utf8se_unsafe (c : Nat) (hv : validChar c = true)
    (hu : isSafeByte c = false) : ∀ b ∈ utf8se c, isSafeByte b = false := by
  unfold utf8se
  split
  case isTrue hc =>
    simp only [Bool.and_eq_true, decide_eq_true_eq] at hc
    intro b hb; simp only [List.mem_singleton] at hb
    exact isSafeByte_false_of_ge b (by omega)
  case isFalse hc =>
    split
    case isTrue h2 =>
      intro b hb; simp only [List.mem_singleton] at hb; subst hb; exact hu
    case isFalse h2 =>
      split
      case isTrue h3 =>
        intro b hb
        simp only [List.mem_cons, List.mem_singleton] at hb
        rcases hb with rfl | rfl | h <;>
          first
            | exact isSafeByte_false_of_ge _ (by omega)
            | cases h
      case isFalse h3 =>
        split
        case isTrue h4 =>
          intro b hb
          simp only [List.mem_cons, List.mem_singleton] at hb
          rcases hb with rfl | rfl | rfl | h <;>
            first
              | exact isSafeByte_false_of_ge _ (by omega)
              | cases h
        case isFalse h4 =>
          intro b hb
          simp only [List.mem_cons, List.mem_singleton] at hb
          rcases hb with rfl | rfl | rfl | rfl | h <;>
            first
              | exact isSafeByte_false_of_ge _ (by omega)
              | cases h

/-- Encoding a string of plain ASCII code points is the identity. -/
theorem encodeBytes_ascii (l : List Nat) (h : ∀ c ∈ l, c < 128) :
    encodeBytes l = l := by
  induction l with
  | nil => rfl
  | cons c r ih =>
      have hc : c < 128 := h c (by simp)
      have : utf8se c = [c] := by
        unfold utf8se
        rw [if_neg (by simp only [Bool.and_eq_true, decide_eq_true_eq]; omega),
          if_pos hc]
      simp only [encodeBytes, List.flatMap_cons, this]
      simpa [encodeBytes] using ih (fun c hc => h c (by simp [hc]))

/-- Every code point of an escaped string is plain ASCII. -/
theorem octal_escape_ascii (s : Name) : ∀ b ∈ octal_escape s, b < 128 := by
  intro b hb
  simp only [octal_escape, List.mem_flatMap] at hb
  obtain ⟨c, _, hc⟩ := hb
  by_cases hs : isSafeByte c = true
  · rw [if_pos hs] at hc
    simp only [List.mem_singleton] at hc
    have := isSafeByte_le c hs
    omega
  · rw [if_neg hs] at hc
    simp only [octal_escape_char, List.mem_flatMap] at hc
    obtain ⟨x, _, hx⟩ := hc
    simp only [escByte, List.mem_cons, List.mem_singleton] at hx
    have h1 : x / 64 % 8 < 8 := Nat.mod_lt _ (by omega)
    have h2 : x / 8 % 8 < 8 := Nat.mod_lt _ (by omega)
    have h3 : x % 8 < 8 := Nat.mod_lt _ (by omega)
    rcases hx with rfl | rfl | rfl | rfl | h <;> first | omega | cases h

/-- Escaping a list of bytes that are all unsafe octal-escapes each byte. -/
theorem perByteEscape_unsafe (l : List Nat) (h : ∀ b ∈ l, isSafeByte b = false) :
    perByteEscape l = l.flatMap escByte := by
  induction l with
  | nil => rfl
  | cons b r ih =>
      simp only [perByteEscape, List.flatMap_cons, h b (by simp)]
      simp only [Bool.false_eq_true, if_false]
      congr 1
      exact ih (fun x hx => h x (by simp [hx]))

/-- The source's per-character escape agrees, at the byte level, with the
spec's per-raw-byte escape: encoding after escaping equals per-byte escaping
after encoding. -/
theorem encode_octal_escape (s : Name) (hv : ∀ c ∈ s, validChar c = true) :
    encodeBytes (octal_escape s) = perByteEscape (encodeBytes s) := by
  induction s with
  | nil => rfl
  | cons c r ih =>
      have hvc : validChar c = true := hv c (by simp)
      have ihr := ih (fun x hx => hv x (by simp [hx]))
      simp only [octal_escape, List.flatMap_cons, encodeBytes] at ihr ⊢
      rw [List.flatMap_append]
      by_cases hs : isSafeByte c = true
      · have hc : c < 128 := by have := isSafeByte_le c hs; omega
        have hut : utf8se c = [c] := by
          unfold utf8se
          rw [if_neg (by simp only [Bool.and_eq_true, decide_eq_true_eq]; omega),
            if_pos hc]
        rw [if_pos hs]
        simp only [perByteEscape, List.flatMap_append, List.flatMap_cons, hut,
          List.flatMap_singleton] at ihr ⊢
        simp only [hs, if_true, encodeBytes] at ihr ⊢
        simp [ihr]
      · rw [if_neg hs]
        have hs' : isSafeByte c = false := Bool.eq_false_iff.mpr hs
        have hub := utf8se_unsafe c hvc hs'
        have hasc : ∀ b ∈ octal_escape_char c, b < 128 := by
          intro b hb
          simp only [octal_escape_char, List.mem_flatMap] at hb
          obtain ⟨x, _, hx⟩ := hb
          simp only [escByte, List.mem_cons, List.mem_singleton] at hx
          have h1 : x / 64 % 8 < 8 := Nat.mod_lt _ (by omega)
          have h2 : x / 8 % 8 < 8 := Nat.mod_lt _ (by omega)
          have h3 : x % 8 < 8 := Nat.mod_lt _ (by omega)
          rcases hx with rfl | rfl | rfl | rfl | h <;> first | omega | cases h
        have henc : (octal_escape_char c).flatMap utf8se = octal_escape_char c := by
          have := encodeBytes_ascii (octal_escape_char c) hasc
          simpa [encodeBytes] using this
        simp only [perByteEscape, List.flatMap_append] at ihr ⊢
        rw [henc]
        have hper : (utf8se c).flatMap
            (fun b => if isSafeByte b then [b] else escByte b)
            = (utf8se c).flatMap escByte := by
          have := perByteEscape_unsafe (utf8se c) hub
          simpa [perByteEscape] using this
        rw [hper]
        rw [ihr, octal_escape_char]

/-- Unfolding lemma: a non-backslash leading byte decodes to itself. -/
theorem unescapeBytes_cons_ne (b : Nat) (l : List Nat) (h : b ≠ 92) :
    unescapeBytes (b :: l) = (b :: ·) <$> unescapeBytes l := by
  match l with
  | d1 :: d2 :: d3 :: rest2 => rw [unescapeBytes.eq_2, if_neg h]
  | [] =>
      rw [unescapeBytes.eq_3 b [] (by intro d1 d2 d3 r2 hc; simp at hc), if_neg h]
  | [a] =>
      rw [unescapeBytes.eq_3 b [a] (by intro d1 d2 d3 r2 hc; simp at hc), if_neg h]
  | [a, c] =>
      rw [unescapeBytes.eq_3 b [a, c] (by intro d1 d2 d3 r2 hc; simp at hc),
        if_neg h]

/-- Unfolding lemma: a backslash followed by three octal digits decodes to
the byte they denote. -/
theorem unescapeBytes_slash (d1 d2 d3 : Nat) (l : List Nat)
    (h : (48 ≤ d1 && d1 ≤ 55 && 48 ≤ d2 && d2 ≤ 55 && 48 ≤ d3 && d3 ≤ 55) = true) :
    unescapeBytes (92 :: d1 :: d2 :: d3 :: l) =
      (fun r => ((d1 - 48) * 64 + (d2 - 48) * 8 + (d3 - 48)) :: r) <$>
        unescapeBytes l := by
  rw [unescapeBytes.eq_2, if_pos rfl, if_pos h]

/-- Decoding inverts the per-byte escape on any byte string. -/
theorem unescape_perByteEscape (bs : List Nat) (h : ∀ b ∈ bs, b < 256) :
    unescapeBytes (perByteEscape bs) = some bs := by
  induction bs with
  | nil => rfl
  | cons b r ih =>
      have hb : b < 256 := h b (by simp)
      have ihr := ih (fun x hx => h x (by simp [hx]))
      simp only [perByteEscape, List.flatMap_cons] at ihr ⊢
      by_cases hs : isSafeByte b = true
      · rw [if_pos hs]
        have hb92 : b ≠ 92 := by
          intro hEq; subst hEq; simp [isSafeByte] at hs
        simp only [List.singleton_append]
        rw [unescapeBytes_cons_ne b _ hb92, ihr]
        rfl
      · rw [if_neg hs]
        have h1 : b / 64 % 8 < 8 := Nat.mod_lt _ (by omega)
        have h2 : b / 8 % 8 < 8 := Nat.mod_lt _ (by omega)
        have h3 : b % 8 < 8 := Nat.mod_lt _ (by omega)
        have hesc : escByte b ++
            (r.flatMap fun x => if isSafeByte x then [x] else escByte x) =
            92 :: (48 + b / 64 % 8) :: (48 + b / 8 % 8) :: (48 + b % 8) ::
              (r.flatMap fun x => if isSafeByte x then [x] else escByte x) := rfl
        rw [hesc]
        rw [unescapeBytes_slash _ _ _ _
          (by simp only [Bool.and_eq_true, decide_eq_true_eq]; omega), ihr]
        simp only [Option.map_some]
        congr 2
        omega

/-- C6: escaping is the per-raw-byte transform the spec describes (safe
bytes unchanged, every other byte rendered as a backslash-octal escape), and
the original byte sequence is recoverable from the escaped form. -/
theorem octal_escape_bytewise_roundtrip (s : Name)
    (hv : ∀ c ∈ s, validChar c = true) :
    encodeBytes (octal_escape s) = perByteEscape (encodeBytes s) ∧
    unescapeBytes (encodeBytes (octal_escape s)) = some (encodeBytes s) := by
  have hlt : ∀ b ∈ encodeBytes s, b < 256 := by
    intro b hbmem
    simp only [encodeBytes, List.mem_flatMap] at hbmem
    obtain ⟨c, hc, hbc⟩ := hbmem
    exact utf8se_lt c (hv c hc) b hbc
  refine ⟨encode_octal_escape s hv, ?_⟩
  rw [encode_octal_escape s hv]
  exact unescape_perByteEscape _ hlt

/-- Witness for C6 at a concrete string mixing a safe ASCII letter, an
unsafe ASCII space, a two-byte UTF-8 character (é) and a surrogate escape. -/
theorem octal_escape_bytewise_roundtrip_witness :
    encodeBytes (octal_escape [97, 32, 233, 56490]) =
        perByteEscape (encodeBytes [97, 32, 233, 56490]) ∧
    unescapeBytes (encodeBytes (octal_escape [97, 32, 233, 56490])) =
        some (encodeBytes [97, 32, 233, 56490]) :=
  octal_escape_bytewise_roundtrip [97, 32, 233, 56490] (by decide)

/-- C7 as stated is false: a backslash (code point 92) makes the code flag a
path as not Windows-friendly, yet it is in none of the claim's categories
(`<>:"|?*` or a surrogate escape). -/
theorem windows_friendly_claim_counterexample :
    filename_is_windows_friendly [92] = false ∧ claimWindowsBad 92 = false := by
  decide

/-- C7 amended: a path is flagged as not Windows-friendly exactly when it
contains one of `< > : " | ? *`, a BACKSLASH, or a surrogate-escape code
point U+DC80..U+DCFF; no other character causes it to be flagged. -/
theorem windows_friendly_iff (s : Name) :
    filename_is_windows_friendly s = false ↔
      ∃ c ∈ s, c = 92 ∨ claimWindowsBad c = true := by
  rw [← Bool.not_eq_true]
  simp only [filename_is_windows_friendly, List.all_eq_true, not_forall]
  constructor
  · rintro ⟨c, hc, hcond⟩
    refine ⟨c, hc, ?_⟩
    simp only [Bool.and_eq_true, Bool.not_eq_eq_eq_not, Bool.not_true,
      Bool.or_eq_false_iff, decide_eq_false_iff_not, Bool.and_eq_false_iff,
      not_and, not_le, claimWindowsBad, Bool.or_eq_true, Bool.and_eq_true,
      decide_eq_true_eq] at hcond ⊢
    omega
  · rintro ⟨c, hc, hcond⟩
    refine ⟨c, ⟨hc, ?_⟩⟩
    simp only [claimWindowsBad, Bool.or_eq_true, Bool.and_eq_true,
      decide_eq_true_eq] at hcond
    simp only [Bool.and_eq_true, Bool.not_eq_eq_eq_not, Bool.not_true,
      Bool.or_eq_false_iff, decide_eq_false_iff_not, Bool.and_eq_false_iff,
      not_and, not_le]
    omega

/-! ## The filesystem model and the Manifest Writer (`Main.write_mtree`) -/

/-- One filesystem object, as `os.lstat` classifies it.  A regular file's
`st_size` is its content length; a directory's `st_size` is the value
`os.lstat` reports for the directory itself (on real filesystems > 0).
A symbolic link records, besides its target, the stat-level observable
`dirLink`: whether the link currently resolves to a directory — this is
what `os.scandir`'s follow-symlinks `is_dir()` reports, and hence decides
membership of the entry in `os.walk`'s `dirnames` (with the default
`followlinks=False`, such a link is listed in `dirnames` but never
descended into). -/
inductive Node : Type where
  | file (mode : Nat) (mtimeSec mtimeFrac : Nat) (content : List Nat)
      (dev ino nlink : Nat)
  | symlink (dirLink : Bool) (target : Name)
  | dir (size : Nat) (children : List (Name × Node))
  | other (size : Nat)

/-- Whether the node is a directory (`stat.S_ISDIR` of its `os.lstat`). -/
def Node.isDir : Node → Bool
  | .file _ _ _ _ _ _ _ => false
  | .symlink _ _ => false
  | .dir _ _ => true
  | .other _ => false

/-- Whether `os.walk` lists this entry among `dirnames`: true for a
directory and for a symbolic link that resolves to a directory. -/
def Node.inDirnames : Node → Bool
  | .file _ _ _ _ _ _ _ => false
  | .symlink d _ => d
  | .dir _ _ => true
  | .other _ => false

/-- Mirror of a Python `str` constant as a list of code points. -/
def strName (s : String) : Name := s.data.map Char.toNat

def steampipeName : Name := strName "steampipe"

def filesName : Name := strName "files"

def usrMtreeName : Name := strName "usr-mtree.txt.gz"

def refName : Name := strName ".ref"

/-- `str(member.relative_to(top))`: path components joined by slashes. -/
def joinName (rel base : Name) : Name :=
  if rel.isEmpty then base else rel ++ 47 :: base

/-- Python `str.lower` restricted to the ASCII range (the only case the
repository's names exercise): ASCII capitals are lowered, everything else
is unchanged. -/
def lowerChar (c : Nat) : Nat := if 65 ≤ c ∧ c ≤ 90 then c + 32 else c

def lowerName (s : Name) : Name := s.map lowerChar

/-- Python string comparison: lexicographic on code points (the order
`sorted` uses). -/
def lexLe : List Nat → List Nat → Bool
  | [], _ => true
  | _ :: _, [] => false
  | a :: as, b :: bs => if a < b then true else if b < a then false else lexLe as bs

/-- `lexLe` as a decidable relation. -/
def lexP (a b : Name) : Prop := lexLe a b = true

instance : DecidableRel lexP := fun a b => by unfold lexP; infer_instance

/-- Python `sorted` on a list of strings: THE sorted rearrangement under
the total order `lexLe` (realized here by insertion sort, which produces
the same list as any stable sort for a total order). -/
def sortNames (l : List Name) : List Name := List.insertionSort lexP l

/-- Association-list model of a Python dict lookup. -/
def alookup {α β : Type} [DecidableEq α] (k : α) : List (α × β) → Option β
  | [] => none
  | (k2, v) :: r => if k = k2 then some v else alookup k r

/-- Python `set.add`: insert if not already present. -/
def sinsert {α : Type} [DecidableEq α] (x : α) (l : List α) : List α :=
  if x ∈ l then l else l ++ [x]

/-- The `type=` of a manifest entry line. -/
inductive EKind : Type where
  | file
  | link
  | dir
  deriving DecidableEq

/-- One manifest entry line, in structured form.  All fields up to
`optional` are data of the written line (serialization is
`' '.join(fields)` in the source); `dev` and `ino` record the lstat
identity of the filesystem object the entry was generated from — they are
not part of the written line, and are kept so that hard-link properties of
the output can be stated. -/
structure MEntry where
  name : Name
  kind : EKind
  mode : Option Nat := none
  time : Option (Nat × Nat) := none
  size : Option Nat := none
  sha256 : Option String := none
  linkTarget : Option Name := none
  ignore : Bool := false
  optional : Bool := false
  dev : Nat := 0
  ino : Nat := 0
  deriving DecidableEq

/-- One output line of the manifest writer; each constructor corresponds to
one `writer.write(...)` call of `Main.write_mtree`. -/
inductive MLine : Type where
  | headerMtree                  -- '#mtree'
  | rootDir                      -- '. type=dir'
  | entry (e : MEntry)           -- './<escaped path> type=... [fields]'
  | hardLink (target : Name)     -- '# hard link to <escaped path>'
  | unknownType (name : Name)    -- '# unknown file type: <escaped path>'
  | blank                        -- ''
  | caseHeader                   -- '# Files whose names differ only by case:'
  | caseName (n : Name)          -- '# <escaped path>'
  | winHeader                    -- '# Files whose names are not Windows-friendly:'
  | winName (n : Name)           -- '# <escaped path>'
  deriving DecidableEq

/-- The local variables of one `write_mtree` invocation. -/
structure WState where
  lc_names : List (Name × Name) := []
  differ_only_by_case : List Name := []
  not_windows_friendly : List Name := []
  sha256 : List ((Nat × Nat) × String) := []
  paths : List ((Nat × Nat) × Name) := []
  hashed : List (Nat × Nat) := []      -- ghost: file ids hashed, in order

/-- The windows-friendliness and case-collision bookkeeping performed for
every member that is neither skipped as `steampipe` nor emitted as an
ignored nested runtime: record the name if it is not Windows-friendly, and
either flag a case collision or remember the lowercased name. -/
def collectName (name : Name) (st : WState) : WState :=
  let st1 := if filename_is_windows_friendly name then st
    else { st with not_windows_friendly := sinsert name st.not_windows_friendly }
  match alookup (lowerName name) st1.lc_names with
  | some prev =>
      { st1 with differ_only_by_case :=
          sinsert name (sinsert prev st1.differ_only_by_case) }
  | none => { st1 with lc_names := (lowerName name, name) :: st1.lc_names }

/-- `collectName` touches only the three diagnostic fields. -/
theorem collectName_sha256 (n : Name) (st : WState) :
    (collectName n st).sha256 = st.sha256 := by
  unfold collectName
  cases hw : filename_is_windows_friendly n <;>
    simp only [Bool.false_eq_true, if_false, if_true] <;>
    (cases hlk : alookup (lowerName n) st.lc_names <;> simp [hlk])

theorem collectName_paths (n : Name) (st : WState) :
    (collectName n st).paths = st.paths := by
  unfold collectName
  cases hw : filename_is_windows_friendly n <;>
    simp only [Bool.false_eq_true, if_false, if_true] <;>
    (cases hlk : alookup (lowerName n) st.lc_names <;> simp [hlk])

theorem collectName_hashed (n : Name) (st : WState) :
    (collectName n st).hashed = st.hashed := by
  unfold collectName
  cases hw : filename_is_windows_friendly n <;>
    simp only [Bool.false_eq_true, if_false, if_true] <;>
    (cases hlk : alookup (lowerName n) st.lc_names <;> simp [hlk])

/-- The digest memoization of the file branch: when the file has non-zero
size and its `(st_dev, st_ino)` is not in the memo table yet, hash the
content, record it, and log the hash computation. -/
def memoFile (hash : List Nat → String) (fid : Nat × Nat)
    (content : List Nat) (st : WState) : WState :=
  if 0 < content.length ∧ alookup fid st.sha256 = none then
    { st with sha256 := (fid, hash content) :: st.sha256,
              hashed := st.hashed ++ [fid] }
  else st

/-- The canonical-location bookkeeping of the file branch: the first
occurrence of a multiply-linked `(st_dev, st_ino)` records its path. -/
def recordPath (nlink : Nat) (fid : Nat × Nat) (name : Name)
    (st : WState) : WState :=
  if 1 < nlink ∧ alookup fid st.paths = none then
    { st with paths := (fid, name) :: st.paths }
  else st

/-- The `if stat_info.st_nlink > 1` bookkeeping of the file branch: when a
canonical path for this `(st_dev, st_ino)` was already recorded, a hard-link
cross-reference comment line is written (before the entry line). -/
def hardLinkLines (nlink : Nat) (fid : Nat × Nat)
    (paths : List ((Nat × Nat) × Name)) : List MLine :=
  if 1 < nlink then
    match alookup fid paths with
    | some prev => [MLine.hardLink prev]
    | none => []
  else []

/-- Processing of a single directory member inside the
`for base in sorted(dirnames + filenames)` loop of `Main.write_mtree`.
Returns the written lines, the updated state, and whether the member was
removed from `dirnames` (so the walk must not descend into it). -/
def emitChild (pm pt srf : Bool) (hash : List Nat → String) (rel : Name)
    (siblings : List (Name × Node)) (base : Name) (node : Node)
    (st : WState) : List MLine × WState × Bool :=
  let name := joinName rel base
  if name = steampipeName ∧ node.inDirnames then ([], st, true)
  else if srf ∧ base = filesName ∧ node.inDirnames ∧
      siblings.any (fun p => p.1 = usrMtreeName) then
    ([.entry { name := name, kind := .dir, ignore := true }], st, true)
  else
    let st2 := collectName name st
    match node with
    | .file mode ms mf content dev ino nlink =>
        let modeF : Option Nat :=
          if pm then some (mode % 512)              -- mode & 0o777, in octal
          else if mode &&& 73 ≠ 0 then some 493     -- 'mode=755' if any 0o111 bit
          else none
        let timeF : Option (Nat × Nat) := if pt then some (ms, mf) else none
        let fid := (dev, ino)
        let size := content.length
        let st3 := memoFile hash fid content st2
        let shaF : Option String := if 0 < size then alookup fid st3.sha256 else none
        let hardLines : List MLine := hardLinkLines nlink fid st3.paths
        let st4 := recordPath nlink fid name st3
        let ent : MEntry :=
          { name := name, kind := .file, mode := modeF, time := timeF,
            size := some size, sha256 := shaF, dev := dev, ino := ino }
        (hardLines ++ [.entry ent], st4, false)
    | .symlink _ target =>
        ([.entry { name := name, kind := .link, linkTarget := some target }],
          st2, false)
    | .dir _ _ => ([.entry { name := name, kind := .dir }], st2, false)
    | .other _ => ([.unknownType name], st2, false)

/-- The whole `for base in sorted(dirnames + filenames)` loop over one
directory, iterating over the sorted member list.  Returns the lines, the
final state and the members removed from `dirnames`. -/
def emitChildren (pm pt srf : Bool) (hash : List Nat → String) (rel : Name)
    (siblings : List (Name × Node)) : List Name → WState →
      List MLine × WState × List Name
  | [], st => ([], st, [])
  | base :: rest, st =>
      match alookup base siblings with
      | none => emitChildren pm pt srf hash rel siblings rest st
      | some node =>
          let r1 := emitChild pm pt srf hash rel siblings base node st
          let r2 := emitChildren pm pt srf hash rel siblings rest r1.2.1
          (r1.1 ++ r2.1, r2.2.1, (if r1.2.2 then [base] else []) ++ r2.2.2)

/-- The two trailing `if differ_only_by_case:` / `if not_windows_friendly:`
blocks.  In the source they sit INSIDE the `for dirpath...` walk loop, so
they run once per visited directory, on the sets accumulated so far. -/
def diagLines (st : WState) : List MLine :=
  (if st.differ_only_by_case = [] then []
    else [.blank, .caseHeader] ++
      ((sortNames st.differ_only_by_case).map MLine.caseName)) ++
  (if st.not_windows_friendly = [] then []
    else [.blank, .winHeader] ++
      ((sortNames st.not_windows_friendly).map MLine.winName))

mutual

/-- Descent of `os.walk` into the subdirectories of the current directory,
in their original (scandir) order, skipping members that were removed from
`dirnames`.  (Only directory members are walked into.) -/
def walkSubs (pm pt srf : Bool) (hash : List Nat → String) (rel : Name)
    (removed : List Name) : List (Name × Node) → WState → List MLine × WState
  | [], st => ([], st)
  | (n, c) :: rest, st =>
      if n ∈ removed then walkSubs pm pt srf hash rel removed rest st
      else
        let r1 := walkNode pm pt srf hash (joinName rel n) c st
        let r2 := walkSubs pm pt srf hash rel removed rest r1.2
        (r1.1 ++ r2.1, r2.2)

/-- One iteration of `os.walk(top)` at the directory `rel` (followed by the
walk of everything below it): the member loop in sorted order, then the two
diagnostic blocks, then descent.  Non-directories contribute nothing (they
are not walked). -/
def walkNode (pm pt srf : Bool) (hash : List Nat → String) (rel : Name) :
    Node → WState → List MLine × WState
  | .dir _ cs, st =>
      let sorted := sortNames (cs.map Prod.fst)
      let r1 := emitChildren pm pt srf hash rel cs sorted st
      let dl := diagLines r1.2.1
      let r2 := walkSubs pm pt srf hash rel r1.2.2 cs r1.2.1
      (r1.1 ++ dl ++ r2.1, r2.2)
  | _, st => ([], st)

end

/-- `Main.write_mtree`: the manifest of the tree whose root has the given
children, as a list of structured lines plus the final writer state (whose
`lc_names` is the function's Python return value). -/
def write_mtree (pm pt srf : Bool) (hash : List Nat → String)
    (top : List (Name × Node)) : List MLine × WState :=
  let r := walkNode pm pt srf hash [] (Node.dir 4096 top) {}
  (MLine.headerMtree :: MLine.rootDir :: r.1, r.2)

/-- The entry lines of a manifest. -/
def entriesOf (ls : List MLine) : List MEntry :=
  ls.filterMap (fun l => match l with | .entry e => some e | _ => none)

/-! ## Visit/emission order within a directory (C4) and the placement of
the diagnostic sections (C5) -/

theorem lexLe_total (a b : Name) : lexLe a b = true ∨ lexLe b a = true := by
  induction a generalizing b with
  | nil => left; rfl
  | cons x xs ih =>
      cases b with
      | nil => right; rfl
      | cons y ys =>
          simp only [lexLe]
          rcases Nat.lt_trichotomy x y with h | h | h
          · left; rw [if_pos h]
          · subst h
            rcases ih ys with h2 | h2
            · left; rw [if_neg (Nat.lt_irrefl x), if_neg (Nat.lt_irrefl x)]; exact h2
            · right; rw [if_neg (Nat.lt_irrefl x), if_neg (Nat.lt_irrefl x)]; exact h2
          · right; rw [if_pos h]

theorem lexLe_trans (a b c : Name) (h1 : lexLe a b = true) (h2 : lexLe b c = true) :
    lexLe a c = true := by
  induction a generalizing b c with
  | nil => rfl
  | cons x xs ih =>
      cases b with
      | nil => simp [lexLe] at h1
      | cons y ys =>
          cases c with
          | nil => simp [lexLe] at h2
          | cons z zs =>
              simp only [lexLe] at h1 h2 ⊢
              rcases Nat.lt_trichotomy x y with hxy | hxy | hxy
              · rcases Nat.lt_trichotomy y z with hyz | hyz | hyz
                · rw [if_pos (Nat.lt_trans hxy hyz)]
                · subst hyz; rw [if_pos hxy]
                · rw [if_pos hyz, if_neg (by omega)] at h2
                  simp at h2
              · subst hxy
                rcases Nat.lt_trichotomy x z with hyz | hyz | hyz
                · rw [if_pos hyz]
                · subst hyz
                  rw [if_neg (Nat.lt_irrefl x), if_neg (Nat.lt_irrefl x)] at h1 h2 ⊢
                  exact ih ys zs h1 h2
                · rw [if_neg (by omega), if_pos hyz] at h2
                  simp at h2
              · rw [if_neg (by omega), if_pos hxy] at h1
                simp at h1

instance : IsTotal Name lexP := ⟨fun a b => lexLe_total a b⟩

instance : IsTrans Name lexP := ⟨fun a b c => lexLe_trans a b c⟩

/-- Appending a common prefix does not change the comparison. -/
theorem lexLe_append_left (p a b : Name) :
    lexLe (p ++ a) (p ++ b) = lexLe a b := by
  induction p with
  | nil => rfl
  | cons x xs ih =>
      simp only [List.cons_append, lexLe, if_neg (Nat.lt_irrefl x)]
      exact ih

/-- Joining onto a common directory prefix does not change the comparison. -/
theorem lexP_joinName (rel a b : Name) :
    lexP (joinName rel a) (joinName rel b) ↔ lexP a b := by
  unfold joinName lexP
  by_cases h : rel.isEmpty
  · rw [if_pos h, if_pos h]
  · rw [if_neg h, if_neg h]
    have := lexLe_append_left rel (47 :: a) (47 :: b)
    rw [this]
    simp only [lexLe, if_neg (Nat.lt_irrefl 47)]

theorem entriesOf_append (a b : List MLine) :
    entriesOf (a ++ b) = entriesOf a ++ entriesOf b := by
  simp [entriesOf]

theorem entriesOf_hardLinkLines (nlink : Nat) (fid : Nat × Nat)
    (paths : List ((Nat × Nat) × Name)) :
    entriesOf (hardLinkLines nlink fid paths) = [] := by
  unfold hardLinkLines
  split
  · split <;> rfl
  · rfl

/-- `emitChild` writes at most one entry line, and when it writes one the
entry's path is the member's joined relative path. -/
theorem emitChild_entry_names (pm pt srf : Bool) (hash : List Nat → String)
    (rel : Name) (siblings : List (Name × Node)) (base : Name) (node : Node)
    (st : WState) :
    (entriesOf (emitChild pm pt srf hash rel siblings base node st).1).map
        MEntry.name = [] ∨
    (entriesOf (emitChild pm pt srf hash rel siblings base node st).1).map
        MEntry.name = [joinName rel base] := by
  unfold emitChild
  by_cases h1 : joinName rel base = steampipeName ∧ Node.inDirnames node = true
  · rw [if_pos h1]; left; rfl
  · rw [if_neg h1]
    by_cases h2 : srf = true ∧ base = filesName ∧ Node.inDirnames node = true ∧
        (siblings.any fun p => decide (p.1 = usrMtreeName)) = true
    · rw [if_pos h2]; right; rfl
    · rw [if_neg h2]
      cases node with
      | file mode ms mf content dev ino nlink =>
          right
          simp only [entriesOf_append, entriesOf_hardLinkLines, List.nil_append]
          rfl
      | symlink dl target => right; rfl
      | dir sz cs => right; rfl
      | other sz => left; rfl

/-- Within one directory's member loop, the emitted entry paths follow the
visit order: they are a subsequence of the sorted member names, each joined
onto the directory prefix. -/
theorem emitChildren_entry_names_sublist (pm pt srf : Bool)
    (hash : List Nat → String) (rel : Name) (siblings : List (Name × Node)) :
    ∀ (order : List Name) (st : WState),
    ((entriesOf (emitChildren pm pt srf hash rel siblings order st).1).map
        MEntry.name).Sublist (order.map (joinName rel))
  | [], _ => by simp [emitChildren, entriesOf]
  | base :: rest, st => by
      rw [emitChildren]
      cases halk : alookup base siblings with
      | none =>
          exact .cons _ (emitChildren_entry_names_sublist pm pt srf hash rel
            siblings rest st)
      | some node =>
          simp only [entriesOf_append, List.map_append, List.map_cons]
          rcases emitChild_entry_names pm pt srf hash rel siblings base node st
            with h | h
          · rw [h, List.nil_append]
            exact .cons _ (emitChildren_entry_names_sublist pm pt srf hash rel
              siblings rest _)
          · rw [h, List.singleton_append]
            exact .cons₂ _ (emitChildren_entry_names_sublist pm pt srf hash rel
              siblings rest _)

/-- C4 amended: within each directory the writer visits members in plain
(exact, code-point lexicographic) sorted order — the sorted list is a
permutation of the member names and is `lexLe`-sorted — and the entry lines
it emits for that directory appear in that order, hence their paths are
themselves `lexLe`-sorted; the member batch is written before everything
else the walk appends for that directory.  (The claim's
case-insensitive-then-exact order is refuted by
`dir_order_counterexample`.) -/
theorem write_mtree_dir_entry_order (pm pt srf : Bool)
    (hash : List Nat → String) (rel : Name) (sz : Nat)
    (children : List (Name × Node)) (st : WState) :
    List.Perm (sortNames (children.map Prod.fst)) (children.map Prod.fst) ∧
    List.Pairwise lexP (sortNames (children.map Prod.fst)) ∧
    ((entriesOf (emitChildren pm pt srf hash rel children
        (sortNames (children.map Prod.fst)) st).1).map MEntry.name).Sublist
      ((sortNames (children.map Prod.fst)).map (joinName rel)) ∧
    List.Pairwise lexP ((entriesOf (emitChildren pm pt srf hash rel children
        (sortNames (children.map Prod.fst)) st).1).map MEntry.name) ∧
    ∃ restLines, (walkNode pm pt srf hash rel (Node.dir sz children) st).1 =
      (emitChildren pm pt srf hash rel children
        (sortNames (children.map Prod.fst)) st).1 ++ restLines := by
  have hperm : List.Perm (sortNames (children.map Prod.fst))
      (children.map Prod.fst) := List.perm_insertionSort lexP _
  have hsorted : List.Pairwise lexP (sortNames (children.map Prod.fst)) :=
    List.sorted_insertionSort lexP _
  have hsub := emitChildren_entry_names_sublist pm pt srf hash rel children
    (sortNames (children.map Prod.fst)) st
  refine ⟨hperm, hsorted, hsub, ?_, ?_⟩
  · refine List.Pairwise.sublist hsub ?_
    rw [List.pairwise_map]
    refine hsorted.imp_of_mem ?_
    intro a b _ _ hab
    exact (lexP_joinName rel a b).mpr hab
  · refine ⟨diagLines (emitChildren pm pt srf hash rel children
        (sortNames (children.map Prod.fst)) st).2.1 ++
      (walkSubs pm pt srf hash rel (emitChildren pm pt srf hash rel children
        (sortNames (children.map Prod.fst)) st).2.2 children
        (emitChildren pm pt srf hash rel children
          (sortNames (children.map Prod.fst)) st).2.1).1, ?_⟩
    rw [walkNode]
    simp only [List.append_assoc]

/-- A fixed stand-in for the hashing primitive (`hashlib.sha256`), used in
concrete witnesses; the development treats the hash as a parameter. -/
def sampleHash : List Nat → String := fun l => toString l.length

/-- Case-insensitive-then-exact comparison (claim-side definition): compare
lowercased forms first, break ties with the exact strings. -/
def ciLe (a b : Name) : Bool :=
  if lowerName a = lowerName b then lexLe a b
  else lexLe (lowerName a) (lowerName b)

/-- A directory with members `B` and `a`. -/
def exC4 : List (Name × Node) :=
  [(strName "B", Node.file 420 0 0 [120] 1 1 1),
   (strName "a", Node.file 420 0 0 [121] 1 2 1)]

/-- C4 as stated is false: with members `B` and `a`, the writer emits `B`
first (plain code-point sort), but the case-insensitive-then-exact order
puts `a` strictly first. -/
theorem dir_order_counterexample :
    (entriesOf (write_mtree true true false sampleHash exC4).1).map
        MEntry.name = [strName "B", strName "a"] ∧
    ciLe (strName "a") (strName "B") = true ∧
    ciLe (strName "B") (strName "a") = false := by
  refine ⟨by decide, by decide, by decide⟩

/-- A tree with a case collision (`A` vs `a`) at the root and one
subdirectory `sub`. -/
def exC5 : List (Name × Node) :=
  [(strName "A", Node.file 420 0 0 [120] 1 1 1),
   (strName "a", Node.file 420 0 0 [121] 1 2 1),
   (strName "sub", Node.dir 4096 [(strName "z", Node.file 420 0 0 [122] 1 3 1)])]

/-- C5: the diagnostic blocks sit inside the walk loop, so they are emitted
once per visited directory rather than once after the full walk: on `exC5`
the case-collision section header appears twice, and entry lines (those of
`sub`) appear after the first header — interleaved, contrary to the claim. -/
theorem diag_sections_per_directory :
    ((write_mtree true true false sampleHash exC5).1.filterMap
        (fun l => match l with | MLine.caseHeader => some 0 | _ => none)).length
      = 2 ∧
    0 < (entriesOf ((write_mtree true true false sampleHash exC5).1.dropWhile
        (fun l => !(l == MLine.caseHeader)))).length := by
  refine ⟨by decide, by decide⟩

/-! ## Digest emission and hard-link memoization (C2) -/

theorem alookup_cons {α β : Type} [DecidableEq α] (k k2 : α) (v : β)
    (m : List (α × β)) :
    alookup k ((k2, v) :: m) = if k = k2 then some v else alookup k m := rfl

mutual

/-- Every regular file in this node (recursively) has the content the
canonical content table `ctt` assigns to its `(st_dev, st_ino)` — the way
real hard links behave. -/
def nodeFilesMatch (ctt : Nat × Nat → List Nat) : Node → Bool
  | .file _ _ _ content dev ino _ => decide (content = ctt (dev, ino))
  | .symlink _ _ => true
  | .dir _ cs => childrenFilesMatch ctt cs
  | .other _ => true

def childrenFilesMatch (ctt : Nat × Nat → List Nat) :
    List (Name × Node) → Bool
  | [] => true
  | (_, c) :: rest => nodeFilesMatch ctt c && childrenFilesMatch ctt rest

end

/-- The memo table maps every file id it knows to the hash of that file's
canonical content. -/
def memoAgrees (ctt : Nat × Nat → List Nat) (hash : List Nat → String)
    (m : List ((Nat × Nat) × String)) : Prop :=
  ∀ fid d, alookup fid m = some d → d = hash (ctt fid)

/-- The ghost `hashed` log never repeats a file id, and every id in it is a
key of the memo table. -/
def hashedInv (st : WState) : Prop :=
  st.hashed.Nodup ∧ ∀ fid ∈ st.hashed, (alookup fid st.sha256).isSome = true

/-- The shape C2 asserts of a file entry: sizes come from the canonical
content, and the digest field is present (and canonical) exactly when that
content is non-empty. -/
def fileEntryOk (ctt : Nat × Nat → List Nat) (hash : List Nat → String)
    (e : MEntry) : Prop :=
  e.kind = EKind.file →
    e.size = some ((ctt (e.dev, e.ino)).length) ∧
    e.sha256 = (if 0 < (ctt (e.dev, e.ino)).length
      then some (hash (ctt (e.dev, e.ino))) else none)

/-- The diagnostic bookkeeping does not affect the hash-log invariant. -/
theorem hashedInv_collectName (n : Name) (st : WState) :
    hashedInv (collectName n st) ↔ hashedInv st := by
  unfold hashedInv
  rw [collectName_hashed, collectName_sha256]

/-- Both walker-state invariants bundled. -/
def stInv (ctt : Nat × Nat → List Nat) (hash : List Nat → String)
    (st : WState) : Prop :=
  memoAgrees ctt hash st.sha256 ∧ hashedInv st

theorem stInv_collectName (ctt : Nat × Nat → List Nat)
    (hash : List Nat → String) (n : Name) (st : WState) (h : stInv ctt hash st) :
    stInv ctt hash (collectName n st) := by
  unfold stInv memoAgrees hashedInv at h ⊢
  rw [collectName_sha256, collectName_hashed]
  exact h

theorem recordPath_sha256 (nlink : Nat) (fid : Nat × Nat) (name : Name)
    (st : WState) : (recordPath nlink fid name st).sha256 = st.sha256 := by
  unfold recordPath
  split <;> rfl

theorem recordPath_hashed (nlink : Nat) (fid : Nat × Nat) (name : Name)
    (st : WState) : (recordPath nlink fid name st).hashed = st.hashed := by
  unfold recordPath
  split <;> rfl

theorem stInv_recordPath (ctt : Nat × Nat → List Nat)
    (hash : List Nat → String) (nlink : Nat) (fid : Nat × Nat) (name : Name)
    (st : WState) (h : stInv ctt hash st) :
    stInv ctt hash (recordPath nlink fid name st) := by
  unfold stInv memoAgrees hashedInv at h ⊢
  rw [recordPath_sha256, recordPath_hashed]
  exact h

theorem stInv_memoFile (ctt : Nat × Nat → List Nat)
    (hash : List Nat → String) (fid : Nat × Nat) (content : List Nat)
    (st : WState) (h : stInv ctt hash st) (hc : content = ctt fid) :
    stInv ctt hash (memoFile hash fid content st) := by
  unfold memoFile
  split
  case isTrue hcond =>
    refine ⟨?_, ?_, ?_⟩
    · intro f d hd
      rw [alookup_cons] at hd
      split at hd
      · cases hd
        rename_i hfid
        subst hfid
        rw [hc]
      · exact h.1 f d hd
    · rw [List.nodup_append]
      refine ⟨h.2.1, List.nodup_singleton _, ?_⟩
      intro f hf
      simp only [List.mem_singleton]
      intro hEq
      subst hEq
      have := h.2.2 f hf
      rw [hcond.2] at this
      cases this
    · intro f hf
      rw [List.mem_append, List.mem_singleton] at hf
      rw [alookup_cons]
      rcases hf with hf | rfl
      · split
        · rfl
        · exact h.2.2 f hf
      · rw [if_pos rfl]
        rfl
  case isFalse => exact h

/-- After the memoization step, a non-empty file's id maps to the canonical
digest. -/
theorem memoFile_lookup_pos (ctt : Nat × Nat → List Nat)
    (hash : List Nat → String) (fid : Nat × Nat) (content : List Nat)
    (st : WState) (h : stInv ctt hash st) (hc : content = ctt fid)
    (hpos : 0 < content.length) :
    alookup fid (memoFile hash fid content st).sha256 =
      some (hash (ctt fid)) := by
  unfold memoFile
  split
  case isTrue =>
    simp [alookup_cons, hc]
  case isFalse hcond =>
    have hlk : alookup fid st.sha256 ≠ none := by
      intro hnone
      exact hcond ⟨hpos, hnone⟩
    cases hlkv : alookup fid st.sha256 with
    | none => exact absurd hlkv hlk
    | some d => rw [h.1 fid d hlkv]

/-- Processing one member preserves the walker-state invariants and emits
only well-formed file entries (size from canonical content, digest present
and canonical exactly when the size is positive). -/
theorem emitChild_invariants (pm pt srf : Bool) (hash : List Nat → String)
    (ctt : Nat × Nat → List Nat) (rel : Name)
    (siblings : List (Name × Node)) (base : Name) (node : Node) (st : WState)
    (h : stInv ctt hash st) (hf : nodeFilesMatch ctt node = true) :
    stInv ctt hash (emitChild pm pt srf hash rel siblings base node st).2.1 ∧
    (∀ e ∈ entriesOf (emitChild pm pt srf hash rel siblings base node st).1,
      fileEntryOk ctt hash e) := by
  unfold emitChild
  by_cases h1 : joinName rel base = steampipeName ∧ Node.inDirnames node = true
  · rw [if_pos h1]
    exact ⟨h, by intro e he; cases he⟩
  · rw [if_neg h1]
    by_cases h2 : srf = true ∧ base = filesName ∧ Node.inDirnames node = true ∧
        (siblings.any fun p => decide (p.1 = usrMtreeName)) = true
    · rw [if_pos h2]
      refine ⟨h, ?_⟩
      intro e he
      simp only [entriesOf, List.filterMap_cons, List.filterMap_nil,
        List.mem_singleton] at he
      subst he
      intro hk
      cases hk
    · rw [if_neg h2]
      have h3 := stInv_collectName ctt hash (joinName rel base) st h
      cases node with
      | file mode ms mf content dev ino nlink =>
          have hcontent : content = ctt (dev, ino) := by
            simpa [nodeFilesMatch] using hf
          have h4 := stInv_memoFile ctt hash (dev, ino) content _ h3 hcontent
          refine ⟨stInv_recordPath ctt hash nlink (dev, ino)
            (joinName rel base) _ h4, ?_⟩
          intro e he
          rw [entriesOf_append, entriesOf_hardLinkLines, List.nil_append] at he
          simp only [entriesOf, List.filterMap_cons, List.filterMap_nil,
            List.mem_singleton] at he
          subst he
          intro _
          refine ⟨by simp only [hcontent], ?_⟩
          show (if 0 < content.length
              then alookup (dev, ino)
                (memoFile hash (dev, ino) content
                  (collectName (joinName rel base) st)).sha256
              else none) = _
          by_cases hpos : 0 < content.length
          · rw [if_pos hpos, if_pos (hcontent ▸ hpos)]
            exact memoFile_lookup_pos ctt hash (dev, ino) content _ h3
              hcontent hpos
          · rw [if_neg hpos, if_neg (hcontent ▸ hpos)]
      | symlink dl target =>
          refine ⟨h3, ?_⟩
          intro e he
          simp only [entriesOf, List.filterMap_cons, List.filterMap_nil,
            List.mem_singleton] at he
          subst he
          intro hk
          cases hk
      | dir sz cs =>
          refine ⟨h3, ?_⟩
          intro e he
          simp only [entriesOf, List.filterMap_cons, List.filterMap_nil,
            List.mem_singleton] at he
          subst he
          intro hk
          cases hk
      | other sz =>
          refine ⟨h3, ?_⟩
          intro e he
          simp only [entriesOf, List.filterMap_cons, List.filterMap_nil] at he
          cases he

theorem entriesOf_diagLines (st : WState) : entriesOf (diagLines st) = [] := by
  unfold diagLines entriesOf
  split <;> split <;>
    simp [List.filterMap_append, List.filterMap_map, List.filterMap_nil]

theorem childrenFilesMatch_alookup (ctt : Nat × Nat → List Nat)
    (siblings : List (Name × Node)) (base : Name) (node : Node)
    (hc : childrenFilesMatch ctt siblings = true)
    (hlk : alookup base siblings = some node) :
    nodeFilesMatch ctt node = true := by
  induction siblings with
  | nil => cases hlk
  | cons p rest ih =>
      obtain ⟨n1, c1⟩ := p
      rw [childrenFilesMatch, Bool.and_eq_true] at hc
      rw [alookup_cons] at hlk
      split at hlk
      · cases hlk; exact hc.1
      · exact ih hc.2 hlk

theorem emitChildren_invariants (pm pt srf : Bool) (hash : List Nat → String)
    (ctt : Nat × Nat → List Nat) (rel : Name)
    (siblings : List (Name × Node))
    (hfs : childrenFilesMatch ctt siblings = true) :
    ∀ (order : List Name) (st : WState), stInv ctt hash st →
      stInv ctt hash (emitChildren pm pt srf hash rel siblings order st).2.1 ∧
      ∀ e ∈ entriesOf (emitChildren pm pt srf hash rel siblings order st).1,
        fileEntryOk ctt hash e
  | [], st, h => by
      rw [emitChildren]
      exact ⟨h, by intro e he; cases he⟩
  | base :: rest, st, h => by
      rw [emitChildren]
      cases hlk : alookup base siblings with
      | none =>
          exact emitChildren_invariants pm pt srf hash ctt rel siblings hfs rest st h
      | some node =>
          have hnf := childrenFilesMatch_alookup ctt siblings base node hfs hlk
          obtain ⟨h1, he1⟩ := emitChild_invariants pm pt srf hash ctt rel
            siblings base node st h hnf
          obtain ⟨h2, he2⟩ := emitChildren_invariants pm pt srf hash ctt rel
            siblings hfs rest _ h1
          refine ⟨h2, ?_⟩
          intro e he
          rw [entriesOf_append, List.mem_append] at he
          rcases he with he | he
          · exact he1 e he
          · exact he2 e he

mutual

theorem walkSubs_invariants (pm pt srf : Bool) (hash : List Nat → String)
    (ctt : Nat × Nat → List Nat) (rel : Name) (removed : List Name) :
    ∀ (l : List (Name × Node)) (st : WState), stInv ctt hash st →
      childrenFilesMatch ctt l = true →
      stInv ctt hash (walkSubs pm pt srf hash rel removed l st).2 ∧
      ∀ e ∈ entriesOf (walkSubs pm pt srf hash rel removed l st).1,
        fileEntryOk ctt hash e
  | [], st, h, _ => by
      rw [walkSubs]
      exact ⟨h, by intro e he; cases he⟩
  | (n, c) :: rest, st, h, hf => by
      rw [childrenFilesMatch, Bool.and_eq_true] at hf
      rw [walkSubs]
      by_cases hmem : n ∈ removed
      · rw [if_pos hmem]
        exact walkSubs_invariants pm pt srf hash ctt rel removed rest st h hf.2
      · rw [if_neg hmem]
        obtain ⟨h1, he1⟩ := walkNode_invariants pm pt srf hash ctt
          (joinName rel n) c st h hf.1
        obtain ⟨h2, he2⟩ := walkSubs_invariants pm pt srf hash ctt rel removed
          rest _ h1 hf.2
        refine ⟨h2, ?_⟩
        intro e he
        rw [entriesOf_append, List.mem_append] at he
        rcases he with he | he
        · exact he1 e he
        · exact he2 e he

theorem walkNode_invariants (pm pt srf : Bool) (hash : List Nat → String)
    (ctt : Nat × Nat → List Nat) (rel : Name) :
    ∀ (node : Node) (st : WState), stInv ctt hash st →
      nodeFilesMatch ctt node = true →
      stInv ctt hash (walkNode pm pt srf hash rel node st).2 ∧
      ∀ e ∈ entriesOf (walkNode pm pt srf hash rel node st).1,
        fileEntryOk ctt hash e
  | .dir sz cs, st, h, hf => by
      rw [nodeFilesMatch] at hf
      rw [walkNode]
      obtain ⟨h1, he1⟩ := emitChildren_invariants pm pt srf hash ctt rel cs hf
        (sortNames (cs.map Prod.fst)) st h
      obtain ⟨h2, he2⟩ := walkSubs_invariants pm pt srf hash ctt rel
        (emitChildren pm pt srf hash rel cs
          (sortNames (cs.map Prod.fst)) st).2.2 cs
        (emitChildren pm pt srf hash rel cs
          (sortNames (cs.map Prod.fst)) st).2.1 h1 hf
      refine ⟨h2, ?_⟩
      intro e he
      rw [entriesOf_append, entriesOf_append, entriesOf_diagLines,
        List.append_nil, List.mem_append] at he
      rcases he with he | he
      · exact he1 e he
      · exact he2 e he
  | .file mode ms mf content dev ino nlink, st, h, _ =>
      ⟨h, by intro e he; cases he⟩
  | .symlink _ t, st, h, _ =>
      ⟨h, by intro e he; cases he⟩
  | .other sz, st, h, _ =>
      ⟨h, by intro e he; cases he⟩

end

/-- C2: in every `write_mtree` invocation, (i) a regular-file entry carries
a sha256 digest exactly when its recorded size is positive; (ii) the hash
is computed at most once per `(st_dev, st_ino)` (the computation log has no
duplicates); (iii) file entries generated from the same `(st_dev, st_ino)`
carry the same digest.  The hypothesis says the tree is hard-link
consistent: a canonical content table `ctt` gives every file's content as a
function of its `(st_dev, st_ino)`. -/
theorem write_mtree_digest_memoization (pm pt srf : Bool)
    (hash : List Nat → String) (ctt : Nat × Nat → List Nat)
    (top : List (Name × Node)) (hcons : childrenFilesMatch ctt top = true) :
    (∀ e ∈ entriesOf (write_mtree pm pt srf hash top).1,
      e.kind = EKind.file →
        ((e.sha256.isSome = true ↔ 0 < e.size.getD 0) ∧
         e.sha256 = (if 0 < (ctt (e.dev, e.ino)).length
           then some (hash (ctt (e.dev, e.ino))) else none))) ∧
    (write_mtree pm pt srf hash top).2.hashed.Nodup ∧
    (∀ e1 ∈ entriesOf (write_mtree pm pt srf hash top).1,
     ∀ e2 ∈ entriesOf (write_mtree pm pt srf hash top).1,
      e1.kind = EKind.file → e2.kind = EKind.file →
      e1.dev = e2.dev → e1.ino = e2.ino → e1.sha256 = e2.sha256) := by
  have hnf : nodeFilesMatch ctt (Node.dir 4096 top) = true := by
    rw [nodeFilesMatch]; exact hcons
  have hinit : stInv ctt hash {} := by
    refine ⟨?_, ?_, ?_⟩
    · intro fid d hd
      cases hd
    · exact List.nodup_nil
    · intro fid hfid
      cases hfid
  obtain ⟨hstate, hentries⟩ := walkNode_invariants pm pt srf hash ctt []
    (Node.dir 4096 top) {} hinit hnf
  have hent : ∀ e ∈ entriesOf (write_mtree pm pt srf hash top).1,
      fileEntryOk ctt hash e := by
    intro e he
    simp only [write_mtree, entriesOf, List.filterMap_cons] at he
    exact hentries e he
  refine ⟨?_, hstate.2.1, ?_⟩
  · intro e he hk
    obtain ⟨hsz, hsha⟩ := hent e he hk
    constructor
    · rw [hsha, hsz]
      by_cases hpos : 0 < (ctt (e.dev, e.ino)).length
      · rw [if_pos hpos]
        simpa using hpos
      · rw [if_neg hpos]
        simpa using hpos
    · exact hsha
  · intro e1 he1 e2 he2 hk1 hk2 hdev hino
    obtain ⟨_, hsha1⟩ := hent e1 he1 hk1
    obtain ⟨_, hsha2⟩ := hent e2 he2 hk2
    rw [hsha1, hsha2, hdev, hino]

/-- A tree with two hard links (`x` and `y`, same device and inode) and one
empty file, together with its canonical content table. -/
def exC2 : List (Name × Node) :=
  [(strName "x", Node.file 420 0 0 [104, 105] 7 9 2),
   (strName "y", Node.file 420 0 0 [104, 105] 7 9 2),
   (strName "z", Node.file 420 0 0 [] 7 10 1)]

def cttC2 : Nat × Nat → List Nat :=
  fun fid => if fid = (7, 9) then [104, 105] else []

/-- Witness for C2 at `exC2`: the hypotheses are discharged by computation
and the conclusion is obtained from the theorem. -/
theorem write_mtree_digest_memoization_witness :
    childrenFilesMatch cttC2 exC2 = true ∧
    ((∀ e ∈ entriesOf (write_mtree true true false sampleHash exC2).1,
      e.kind = EKind.file →
        ((e.sha256.isSome = true ↔ 0 < e.size.getD 0) ∧
         e.sha256 = (if 0 < (cttC2 (e.dev, e.ino)).length
           then some (sampleHash (cttC2 (e.dev, e.ino))) else none))) ∧
    (write_mtree true true false sampleHash exC2).2.hashed.Nodup ∧
    (∀ e1 ∈ entriesOf (write_mtree true true false sampleHash exC2).1,
     ∀ e2 ∈ entriesOf (write_mtree true true false sampleHash exC2).1,
      e1.kind = EKind.file → e2.kind = EKind.file →
      e1.dev = e2.dev → e1.ino = e2.ino → e1.sha256 = e2.sha256)) :=
  ⟨by decide, write_mtree_digest_memoization true true false sampleHash cttC2
    exC2 (by decide)⟩

/-! ## The Tree Minimizer (`Main.minimize_runtime`) -/

/-- The one removal failure reachable in the model: `os.remove` applied to
a directory (raised when a still-present directory reports `st_size == 0`).
`errno.ENOTEMPTY` failures of `os.rmdir` are swallowed by the source and
never surface. -/
inductive MinErr : Type where
  | eisdir
  deriving DecidableEq

mutual

/-- What the bottom-up walk of `minimize_runtime` leaves of one directory
member: `none` if the member ends up removed.  Symbolic links and zero-size
members are removed with `os.remove`; a subdirectory is first processed
recursively (its own walk iteration ran earlier), then — if it emptied
itself, its own `os.rmdir` already removed it (the parent's `os.lstat`
raises `FileNotFoundError`, which is skipped); if it is still present and
reports size zero the parent's `os.remove` raises `IsADirectoryError`. -/
def minimizeNode : Node → Except MinErr (Option Node)
  | .symlink _ _ => .ok none
  | .file mode ms mf content dev ino nlink =>
      if content.length = 0 then .ok none
      else .ok (some (.file mode ms mf content dev ino nlink))
  | .other sz => if sz = 0 then .ok none else .ok (some (.other sz))
  | .dir sz cs =>
      match minimizeChildren cs with
      | .error e => .error e
      | .ok cs2 =>
          if cs2.isEmpty then .ok none
          else if sz = 0 then .error .eisdir
          else .ok (some (.dir sz cs2))

/-- The processing of a directory's member list (each member's removal
decision, keeping order). -/
def minimizeChildren : List (Name × Node) → Except MinErr (List (Name × Node))
  | [] => .ok []
  | (n, c) :: rest =>
      match minimizeNode c with
      | .error e => .error e
      | .ok none => minimizeChildren rest
      | .ok (some c2) =>
          match minimizeChildren rest with
          | .error e => .error e
          | .ok r => .ok ((n, c2) :: r)

end

/-- Replace the (first) child of this name. -/
def replaceChild (n : Name) (c : Node) : List (Name × Node) → List (Name × Node)
  | [] => []
  | (n2, c2) :: rest =>
      if n2 = n then (n2, c) :: rest else (n2, c2) :: replaceChild n c rest

/-- Drop the (first) child of this name. -/
def removeChild (n : Name) : List (Name × Node) → List (Name × Node)
  | [] => []
  | (n2, c2) :: rest =>
      if n2 = n then rest else (n2, c2) :: removeChild n rest

/-- `Main.minimize_runtime`: `os.walk(os.path.join(root, 'files'),
topdown=False)` — the whole processing happens below `root/files`; the
`files` directory itself gets a final `rmdir` attempt (succeeding exactly
when it emptied out), and a missing or non-directory `files` yields an
empty walk, i.e. no change. -/
def minimize_runtime (rootChildren : List (Name × Node)) :
    Except MinErr (List (Name × Node)) :=
  match alookup filesName rootChildren with
  | some (.dir sz cs) =>
      match minimizeChildren cs with
      | .error e => .error e
      | .ok cs2 =>
          if cs2.isEmpty then .ok (removeChild filesName rootChildren)
          else .ok (replaceChild filesName (.dir sz cs2) rootChildren)
  | _ => .ok rootChildren

mutual

/-- Every directory in this node reports a positive `st_size` (true of
every real filesystem). -/
def nodeDirsPositive : Node → Bool
  | .file _ _ _ _ _ _ _ => true
  | .symlink _ _ => true
  | .dir sz cs => decide (0 < sz) && childrenDirsPositive cs
  | .other _ => true

def childrenDirsPositive : List (Name × Node) → Bool
  | [] => true
  | (_, c) :: rest => nodeDirsPositive c && childrenDirsPositive rest

end

mutual

/-- A fully minimized node: no symbolic link, no zero-size regular file or
special file, and no empty directory anywhere. -/
def nodeMinimal : Node → Bool
  | .file _ _ _ content _ _ _ => decide (0 < content.length)
  | .symlink _ _ => false
  | .dir _ cs => !cs.isEmpty && childrenMinimal cs
  | .other sz => decide (0 < sz)

def childrenMinimal : List (Name × Node) → Bool
  | [] => true
  | (_, c) :: rest => nodeMinimal c && childrenMinimal rest

end

/-- Every member of the minimized list stems from a member of the original
list with the same name whose processing kept it. -/
theorem minimizeChildren_sources :
    ∀ (cs cs2 : List (Name × Node)), minimizeChildren cs = .ok cs2 →
      ∀ p ∈ cs2, ∃ c, (p.1, c) ∈ cs ∧ minimizeNode c = .ok (some p.2)
  | [], cs2, h, p, hp => by
      rw [minimizeChildren] at h
      cases h
      cases hp
  | (n, c) :: rest, cs2, h, p, hp => by
      rw [minimizeChildren] at h
      cases hmn : minimizeNode c with
      | error e => rw [hmn] at h; cases h
      | ok r =>
          rw [hmn] at h
          cases r with
          | none =>
              obtain ⟨c0, hc0, hc0m⟩ :=
                minimizeChildren_sources rest cs2 h p hp
              exact ⟨c0, List.mem_cons_of_mem _ hc0, hc0m⟩
          | some c2 =>
              cases hrest : minimizeChildren rest with
              | error e => rw [hrest] at h; cases h
              | ok r2 =>
                  rw [hrest] at h
                  have hcs2 := Except.ok.inj h
                  subst hcs2
                  rcases List.mem_cons.mp hp with hp | hp
                  · subst hp
                    exact ⟨c, List.mem_cons_self _ _, by rw [hmn]⟩
                  · obtain ⟨c0, hc0, hc0m⟩ :=
                      minimizeChildren_sources rest r2 hrest p hp
                    exact ⟨c0, List.mem_cons_of_mem _ hc0, hc0m⟩

/-- A member whose processing keeps it appears (transformed) in the
minimized list. -/
theorem minimizeChildren_keeps :
    ∀ (cs cs2 : List (Name × Node)), minimizeChildren cs = .ok cs2 →
      ∀ (n : Name) (c : Node), (n, c) ∈ cs →
      ∀ (c2 : Node), minimizeNode c = .ok (some c2) → (n, c2) ∈ cs2
  | [], cs2, h, n, c, hmem, c2, hc2 => by cases hmem
  | (n1, c1) :: rest, cs2, h, n, c, hmem, c2, hc2 => by
      rw [minimizeChildren] at h
      rcases List.mem_cons.mp hmem with hEq | hmem2
      · cases hEq
        rw [hc2] at h
        cases hrest : minimizeChildren rest with
        | error e => rw [hrest] at h; cases h
        | ok r2 =>
            rw [hrest] at h
            cases h
            exact List.mem_cons_self _ _
      · cases hmn : minimizeNode c1 with
        | error e => rw [hmn] at h; cases h
        | ok r =>
            rw [hmn] at h
            cases r with
            | none => exact minimizeChildren_keeps rest cs2 h n c hmem2 c2 hc2
            | some c12 =>
                cases hrest : minimizeChildren rest with
                | error e => rw [hrest] at h; cases h
                | ok r2 =>
                    rw [hrest] at h
                    cases h
                    exact List.mem_cons_of_mem _
                      (minimizeChildren_keeps rest r2 hrest n c hmem2 c2 hc2)

/-- Unfolding of the directory case once the children are processed. -/
theorem minimizeNode_dir_eq (sz : Nat) (cs cs2 : List (Name × Node))
    (hok : minimizeChildren cs = .ok cs2) :
    minimizeNode (.dir sz cs) =
      (if cs2.isEmpty then .ok none
       else if sz = 0 then .error .eisdir
       else .ok (some (.dir sz cs2))) := by
  rw [minimizeNode, hok]

mutual

/-- When every directory reports a positive size, processing a node never
fails, and whatever remains is fully minimized. -/
theorem minimizeNode_ok : ∀ (c : Node), nodeDirsPositive c = true →
    ∃ r, minimizeNode c = .ok r ∧ ∀ c2, r = some c2 → nodeMinimal c2 = true
  | .file mode ms mf content dev ino nlink, _ => by
      rw [minimizeNode]
      by_cases hlen : content.length = 0
      · rw [if_pos hlen]
        exact ⟨none, rfl, by intro c2 hc2; cases hc2⟩
      · rw [if_neg hlen]
        refine ⟨some (.file mode ms mf content dev ino nlink), rfl, ?_⟩
        intro c2 hc2
        cases hc2
        rw [nodeMinimal]
        simp only [decide_eq_true_eq]
        omega
  | .symlink _ t, _ => by
      rw [minimizeNode]
      exact ⟨none, rfl, by intro c2 hc2; cases hc2⟩
  | .other sz, _ => by
      rw [minimizeNode]
      by_cases hsz : sz = 0
      · rw [if_pos hsz]
        exact ⟨none, rfl, by intro c2 hc2; cases hc2⟩
      · rw [if_neg hsz]
        refine ⟨some (.other sz), rfl, ?_⟩
        intro c2 hc2
        cases hc2
        rw [nodeMinimal]
        simp only [decide_eq_true_eq]
        omega
  | .dir sz cs, h => by
      rw [nodeDirsPositive, Bool.and_eq_true, decide_eq_true_eq] at h
      obtain ⟨cs2, hok, hmin⟩ := minimizeChildren_ok cs h.2
      rw [minimizeNode_dir_eq sz cs cs2 hok]
      by_cases hemp : cs2.isEmpty
      · rw [if_pos hemp]
        exact ⟨none, rfl, by intro c2 hc2; cases hc2⟩
      · rw [if_neg hemp, if_neg (by omega)]
        refine ⟨some (.dir sz cs2), rfl, ?_⟩
        intro c2 hc2
        cases hc2
        rw [nodeMinimal, Bool.and_eq_true]
        exact ⟨by simpa using hemp, hmin⟩

theorem minimizeChildren_ok : ∀ (cs : List (Name × Node)),
    childrenDirsPositive cs = true →
    ∃ cs2, minimizeChildren cs = .ok cs2 ∧ childrenMinimal cs2 = true
  | [], _ => ⟨[], rfl, rfl⟩
  | (n, c) :: rest, h => by
      rw [childrenDirsPositive, Bool.and_eq_true] at h
      obtain ⟨r, hr, hrmin⟩ := minimizeNode_ok c h.1
      obtain ⟨cs2, hcs2, hcs2min⟩ := minimizeChildren_ok rest h.2
      rw [minimizeChildren, hr]
      cases r with
      | none => exact ⟨cs2, hcs2, hcs2min⟩
      | some c2 =>
          rw [hcs2]
          refine ⟨(n, c2) :: cs2, rfl, ?_⟩
          rw [childrenMinimal, Bool.and_eq_true]
          exact ⟨hrmin c2 rfl, hcs2min⟩

end

/-- With duplicate-free member names, a name determines its node. -/
theorem mem_keys_unique :
    ∀ (cs : List (Name × Node)), (cs.map Prod.fst).Nodup →
      ∀ (n : Name) (c c2 : Node), (n, c) ∈ cs → (n, c2) ∈ cs → c = c2
  | [], _, n, c, c2, h1, _ => by cases h1
  | (n1, c1) :: rest, hnd, n, c, c2, h1, h2 => by
      rw [List.map_cons, List.nodup_cons] at hnd
      rcases List.mem_cons.mp h1 with hEq1 | hm1 <;>
        rcases List.mem_cons.mp h2 with hEq2 | hm2
      · cases hEq1; cases hEq2; rfl
      · cases hEq1
        exact absurd (List.mem_map_of_mem Prod.fst hm2) hnd.1
      · cases hEq2
        exact absurd (List.mem_map_of_mem Prod.fst hm1) hnd.1
      · exact mem_keys_unique rest hnd.2 n c c2 hm1 hm2

/-- A member of a list of positive-dir-size members is itself
positive-dir-size. -/
theorem member_dirsPositive :
    ∀ (cs : List (Name × Node)), childrenDirsPositive cs = true →
      ∀ (n : Name) (c : Node), (n, c) ∈ cs → nodeDirsPositive c = true
  | [], _, n, c, hmem => by cases hmem
  | (n1, c1) :: rest, h, n, c, hmem => by
      rw [childrenDirsPositive, Bool.and_eq_true] at h
      rcases List.mem_cons.mp hmem with hEq | hm
      · cases hEq; exact h.1
      · exact member_dirsPositive rest h.2 n c hm

/-- A payload with a symlink, an empty file, a directory that empties out,
a pre-existing empty directory, and a non-empty file inside a non-empty
directory. -/
def exMin : List (Name × Node) :=
  [(strName "lnk", Node.symlink false (strName "target")),
   (strName "empty", Node.file 420 0 0 [] 1 1 1),
   (strName "emptying", Node.dir 4096 [(strName "l2", Node.symlink false (strName "t"))]),
   (strName "wasEmpty", Node.dir 4096 []),
   (strName "keepdir", Node.dir 4096 [(strName "f", Node.file 420 0 0 [7] 1 2 1)])]

/-- C3 as stated is false: `d` is a pre-existing EMPTY directory — the pass
deletes nothing from inside it (it has no members at all), so it did not
"become empty purely from this process" — yet the post-order walk's
`os.rmdir` removes it, while the non-empty remainder is kept. -/
theorem minimize_claim_counterexample :
    minimizeChildren [(strName "d", Node.dir 4096 []),
        (strName "keep", Node.file 420 0 0 [1] 1 1 1)] =
      .ok [(strName "keep", Node.file 420 0 0 [1] 1 1 1)] := rfl

/-- C3 amended: after deleting every symbolic link and zero-size entry
under the payload root in a post-order walk, the Minimizer removes a
directory exactly when it is empty at the moment its `rmdir` is attempted —
whether it became empty through the deletions or was empty to begin with.
Non-empty directories are untouched (`ENOTEMPTY` failures are swallowed,
not errors), nothing else is modified, and any other removal failure (here:
`os.remove` hitting a still-present zero-size directory) propagates.
Stated for real filesystems, where directories report positive sizes and a
directory's member names are distinct. -/
theorem minimize_runtime_amended (cs : List (Name × Node))
    (hpos : childrenDirsPositive cs = true)
    (hnd : (cs.map Prod.fst).Nodup) :
    ∃ cs2, minimizeChildren cs = .ok cs2 ∧
      childrenMinimal cs2 = true ∧
      (∀ (n : Name) (mode ms mf : Nat) (content : List Nat)
        (dev ino nlink : Nat),
        (n, Node.file mode ms mf content dev ino nlink) ∈ cs →
        0 < content.length →
        (n, Node.file mode ms mf content dev ino nlink) ∈ cs2) ∧
      (∀ (n : Name) (sz : Nat) (ccs : List (Name × Node)),
        (n, Node.dir sz ccs) ∈ cs →
        ((minimizeChildren ccs = .ok [] → ∀ c2, (n, c2) ∉ cs2) ∧
         (∀ ccs2, minimizeChildren ccs = .ok ccs2 → ccs2 ≠ [] →
           (n, Node.dir sz ccs2) ∈ cs2))) ∧
      minimizeChildren [(strName "d", Node.dir 0
        [(strName "f", Node.file 420 0 0 [1] 1 1 1)])] = .error .eisdir := by
  obtain ⟨cs2, hok, hmin⟩ := minimizeChildren_ok cs hpos
  refine ⟨cs2, hok, hmin, ?_, ?_, rfl⟩
  · intro n mode ms mf content dev ino nlink hmem hlen
    refine minimizeChildren_keeps cs cs2 hok n _ hmem _ ?_
    rw [minimizeNode, if_neg (by omega)]
  · intro n sz ccs hmem
    constructor
    · intro hccs c2 hc2mem
      obtain ⟨c0, hc0mem, hc0⟩ := minimizeChildren_sources cs cs2 hok
        (n, c2) hc2mem
      have hc0d : c0 = Node.dir sz ccs :=
        mem_keys_unique cs hnd n c0 (Node.dir sz ccs) hc0mem hmem
      subst hc0d
      rw [minimizeNode_dir_eq sz ccs [] hccs] at hc0
      simp only [List.isEmpty_nil, if_true] at hc0
      cases hc0
    · intro ccs2 hccs2 hne
      have hsz : 0 < sz := by
        have := member_dirsPositive cs hpos n _ hmem
        rw [nodeDirsPositive, Bool.and_eq_true, decide_eq_true_eq] at this
        exact this.1
      refine minimizeChildren_keeps cs cs2 hok n _ hmem _ ?_
      rw [minimizeNode_dir_eq sz ccs ccs2 hccs2,
        if_neg (by simpa using hne), if_neg (by omega)]

/-- Witness for C3 (amended) at a small payload: a symlink, an empty file,
a directory that empties out, a pre-existing empty directory, and a
non-empty file in a non-empty directory. -/
theorem minimize_runtime_amended_witness :
    childrenDirsPositive exMin = true ∧ ((exMin.map Prod.fst).Nodup) ∧
    ∃ cs2, minimizeChildren exMin = .ok cs2 ∧
      childrenMinimal cs2 = true ∧
      (∀ (n : Name) (mode ms mf : Nat) (content : List Nat)
        (dev ino nlink : Nat),
        (n, Node.file mode ms mf content dev ino nlink) ∈ exMin →
        0 < content.length →
        (n, Node.file mode ms mf content dev ino nlink) ∈ cs2) ∧
      (∀ (n : Name) (sz : Nat) (ccs : List (Name × Node)),
        (n, Node.dir sz ccs) ∈ exMin →
        ((minimizeChildren ccs = .ok [] → ∀ c2, (n, c2) ∉ cs2) ∧
         (∀ ccs2, minimizeChildren ccs = .ok ccs2 → ccs2 ≠ [] →
           (n, Node.dir sz ccs2) ∈ cs2))) ∧
      minimizeChildren [(strName "d", Node.dir 0
        [(strName "f", Node.file 420 0 0 [1] 1 1 1)])] = .error .eisdir :=
  ⟨by decide, by decide, minimize_runtime_amended exMin (by decide) (by decide)⟩

/-! ## `Main.ensure_ref` (C10) -/

/-- `Main.ensure_ref`: `os.stat(path/files/.ref, follow_symlinks=False)`;
on `FileNotFoundError`, create the file empty (`open(ref, 'x')` — the
creation mode depends on the umask, represented here as 0644); otherwise
demand a zero-size regular file, raising
`RuntimeError('Expected {path} to be an empty regular file')` for anything
else.  A missing (or non-directory) `files` makes the creating `open` raise
`FileNotFoundError` (or `NotADirectoryError`), which nothing catches. -/
def ensure_ref (path : String) (rootChildren : List (Name × Node)) :
    Except String (List (Name × Node)) :=
  match alookup filesName rootChildren with
  | some (.dir sz fcs) =>
      match alookup refName fcs with
      | none =>
          .ok (replaceChild filesName
            (.dir sz (fcs ++ [(refName, Node.file 420 0 0 [] 0 0 1)]))
            rootChildren)
      | some (.file _ _ _ content _ _ _) =>
          if 0 < content.length then
            .error ("Expected " ++ path ++ " to be an empty regular file")
          else .ok rootChildren
      | some _ =>
          .error ("Expected " ++ path ++ " to be an empty regular file")
  | _ => .error "FileNotFoundError"

theorem ensure_ref_files_eq (path : String)
    (rootChildren : List (Name × Node)) (sz : Nat)
    (fcs : List (Name × Node))
    (hf : alookup filesName rootChildren = some (.dir sz fcs)) :
    ensure_ref path rootChildren =
      (match alookup refName fcs with
      | none =>
          .ok (replaceChild filesName
            (.dir sz (fcs ++ [(refName, Node.file 420 0 0 [] 0 0 1)]))
            rootChildren)
      | some (.file _ _ _ content _ _ _) =>
          if 0 < content.length then
            .error ("Expected " ++ path ++ " to be an empty regular file")
          else .ok rootChildren
      | some _ =>
          .error ("Expected " ++ path ++ " to be an empty regular file")) := by
  rw [ensure_ref, hf]

/-- C10: with `files` present as a directory, `ensure_ref` (i) creates
`files/.ref` as an empty regular file when absent; (ii) leaves everything
unchanged when `files/.ref` is a zero-size regular file; (iii) raises a
`RuntimeError` — applying no change — when `files/.ref` exists but is a
non-empty file or not a regular file at all. -/
theorem ensure_ref_spec (path : String)
    (rootChildren : List (Name × Node)) (sz : Nat)
    (fcs : List (Name × Node))
    (hfiles : alookup filesName rootChildren = some (.dir sz fcs)) :
    (alookup refName fcs = none →
      ensure_ref path rootChildren = .ok (replaceChild filesName
        (.dir sz (fcs ++ [(refName, Node.file 420 0 0 [] 0 0 1)]))
        rootChildren)) ∧
    (∀ mode ms mf dev ino nlink,
      alookup refName fcs = some (.file mode ms mf [] dev ino nlink) →
      ensure_ref path rootChildren = .ok rootChildren) ∧
    (∀ c, alookup refName fcs = some c →
      (∀ mode ms mf dev ino nlink, c ≠ .file mode ms mf [] dev ino nlink) →
      ensure_ref path rootChildren =
        .error ("Expected " ++ path ++ " to be an empty regular file")) := by
  rw [ensure_ref_files_eq path rootChildren sz fcs hfiles]
  refine ⟨?_, ?_, ?_⟩
  · intro href
    rw [href]
  · intro mode ms mf dev ino nlink href
    rw [href]
    rfl
  · intro c href hne
    rw [href]
    cases c with
    | file mode ms mf content dev ino nlink =>
        have hlen : content ≠ [] := by
          intro hc
          subst hc
          exact hne mode ms mf dev ino nlink rfl
        have hpos : 0 < content.length := by
          cases content with
          | nil => exact absurd rfl hlen
          | cons a r => simp
        show (if 0 < content.length then
            Except.error ("Expected " ++ path ++ " to be an empty regular file")
          else Except.ok rootChildren) =
          Except.error ("Expected " ++ path ++ " to be an empty regular file")
        rw [if_pos hpos]
    | symlink dl t => rfl
    | dir s2 cs2 => rfl
    | other s2 => rfl

/-- A runtime root whose `files` directory has no `.ref` yet. -/
def exRef : List (Name × Node) :=
  [(filesName, Node.dir 4096 [(strName "a", Node.file 420 0 0 [3] 1 1 1)])]

/-- Witness for C10: on `exRef`, the `.ref`-absent branch applies and the
marker file is created. -/
theorem ensure_ref_spec_witness :
    alookup filesName exRef =
      some (Node.dir 4096 [(strName "a", Node.file 420 0 0 [3] 1 1 1)]) ∧
    ensure_ref "rt" exRef = .ok (replaceChild filesName
      (Node.dir 4096 ([(strName "a", Node.file 420 0 0 [3] 1 1 1)] ++
        [(refName, Node.file 420 0 0 [] 0 0 1)])) exRef) :=
  ⟨by rfl, (ensure_ref_spec "rt" exRef 4096
    [(strName "a", Node.file 420 0 0 [3] 1 1 1)] (by rfl)).1 (by rfl)⟩

/-! ## The Manifest Verifier (C1, C8).

The verifier binary (`pv-verify`, exercised by
tests/pressure-vessel/verify.py) is C code that is not part of this corpus;
the definitions below are modelled from the spec (sections 4.2, 6 and 7)
and are marked as such. -/

/-- Path components of a slash-separated relative path. -/
def splitName : Name → List Name
  | [] => [[]]
  | c :: rest =>
      let r := splitName rest
      if c = 47 then [] :: r
      else
        match r with
        | [] => [[c]]
        | s :: ss => (c :: s) :: ss

/-- Join path components with slashes (left inverse of `splitName` for
non-empty, slash-free components). -/
def joinComps : List Name → Name
  | [] => []
  | p :: rest => if rest.isEmpty then p else p ++ 47 :: joinComps rest

/-- Modelled from the spec: the Manifest Verifier's error taxonomy
(structural mismatch, content mismatch, unmanifested entry, missing
mandatory entry), each naming the offending path and the data of the
mismatch. -/
inductive VErr : Type where
  | missingEntry (path : Name)
  | kindMismatch (path : Name) (expected : EKind)
  | modeMismatch (path : Name) (expected actual : Nat)
  | sizeMismatch (path : Name) (expected actual : Nat)
  | contentMismatch (path : Name)
  | linkMismatch (path : Name) (actual expected : Name)
  | notInManifest (kindWord : String) (path : Name)
  deriving DecidableEq

/-- Look a component path up in the tree (directories only may be
descended into). -/
def lookupPath : List Name → List (Name × Node) → Option Node
  | [], _ => none
  | c :: rest, children =>
      match alookup c children with
      | none => none
      | some node =>
          if rest.isEmpty then some node
          else
            match node with
            | .dir _ ccs => lookupPath rest ccs
            | _ => none

/-- Modelled from the spec: the file checks of verifier step 3 — if `mode`
was recorded the disk permission bits must match exactly, if `size` was
recorded the disk size must match exactly, if a digest was recorded the
streamed hash of the disk content must match. -/
def checkFileEntry (hash : List Nat → String) (e : MEntry) (mode : Nat)
    (content : List Nat) : Except VErr Unit :=
  match e.mode with
  | some m =>
      if m = mode % 512 then
        match e.size with
        | some s =>
            if s = content.length then
              match e.sha256 with
              | some d =>
                  if d = hash content then .ok ()
                  else .error (.contentMismatch e.name)
              | none => .ok ()
            else .error (.sizeMismatch e.name s content.length)
        | none =>
            match e.sha256 with
            | some d =>
                if d = hash content then .ok ()
                else .error (.contentMismatch e.name)
            | none => .ok ()
      else .error (.modeMismatch e.name m (mode % 512))
  | none =>
      match e.size with
      | some s =>
          if s = content.length then
            match e.sha256 with
            | some d =>
                if d = hash content then .ok ()
                else .error (.contentMismatch e.name)
            | none => .ok ()
          else .error (.sizeMismatch e.name s content.length)
      | none =>
          match e.sha256 with
          | some d =>
              if d = hash content then .ok ()
              else .error (.contentMismatch e.name)
          | none => .ok ()

/-- Modelled from the spec: verifier step 3 for one manifest entry —
entries flagged `ignore` are not checked at all; an `optional` entry absent
from disk is skipped; otherwise the disk object must exist with the
recorded kind, and its recorded fields must match (symlink targets compared
as raw strings, no canonicalization). -/
def checkEntry (hash : List Nat → String) (tree : List (Name × Node))
    (e : MEntry) : Except VErr Unit :=
  if e.ignore then .ok ()
  else
    match lookupPath (splitName e.name) tree with
    | none => if e.optional then .ok () else .error (.missingEntry e.name)
    | some node =>
        match e.kind, node with
        | .dir, .dir _ _ => .ok ()
        | .file, .file mode _ _ content _ _ _ =>
            checkFileEntry hash e mode content
        | .link, .symlink _ t =>
            if e.linkTarget = some t then .ok ()
            else .error (.linkMismatch e.name t (e.linkTarget.getD []))
        | k, _ => .error (.kindMismatch e.name k)

/-- Modelled from the spec: verifier step 3 applied to every entry of the
parsed table, fail-fast. -/
def checkEntries (hash : List Nat → String) (tree : List (Name × Node)) :
    List MEntry → Except VErr Unit
  | [] => .ok ()
  | e :: rest =>
      match checkEntry hash tree e with
      | .error er => .error er
      | .ok _ => checkEntries hash tree rest

/-- The word used by the "not found in manifest" diagnostic for this kind
of disk object. -/
def kindWord : Node → String
  | .file _ _ _ _ _ _ _ => "regular file"
  | .symlink _ _ => "symbolic link"
  | .dir _ _ => "directory"
  | .other _ => "unknown object"

mutual

/-- Modelled from the spec: verifier step 4 — every entry found on disk
must be accounted for in the manifest, except below entries flagged
`ignore`, which the verifier must not descend into. -/
def checkDiskNode (hash : List Nat → String) (tbl : List MEntry) (p : Name) :
    Node → Except VErr Unit
  | .dir _ cs => checkDiskChildren hash tbl p cs
  | .file _ _ _ _ _ _ _ => .ok ()
  | .symlink _ _ => .ok ()
  | .other _ => .ok ()

def checkDiskChildren (hash : List Nat → String) (tbl : List MEntry)
    (rel : Name) : List (Name × Node) → Except VErr Unit
  | [] => .ok ()
  | (n, c) :: rest =>
      let p := joinName rel n
      match tbl.find? (fun e => decide (e.name = p)) with
      | none => .error (.notInManifest (kindWord c) p)
      | some e =>
          if e.ignore then checkDiskChildren hash tbl rel rest
          else
            match checkDiskNode hash tbl p c with
            | .error er => .error er
            | .ok _ => checkDiskChildren hash tbl rel rest

end

/-- Modelled from the spec: the Manifest Verifier — parse the manifest into
its entry table (octal escapes decoded; the structured `MEntry.name` is
already the decoded path, justified by `octal_escape_bytewise_roundtrip`),
check every table entry against the tree, then check that everything on
disk is accounted for.  The manifest's own file lives next to the verified
tree, not inside it, so no self-entry exclusion arises. -/
def verify (hash : List Nat → String) (m : List MLine)
    (tree : List (Name × Node)) : Except VErr Unit :=
  match checkEntries hash tree (entriesOf m) with
  | .error er => .error er
  | .ok _ => checkDiskChildren hash (entriesOf m) [] tree

/-! ### Paths, well-formed trees, subtree lookup -/

/-- Conditions a real filesystem imposes on path components. -/
def compsWf (l : List Name) : Prop := ∀ p ∈ l, p ≠ [] ∧ ¬47 ∈ p

mutual

/-- Real-filesystem well-formedness: member names are non-empty, free of
slashes, and distinct within each directory. -/
def nodeWf : Node → Bool
  | .file _ _ _ _ _ _ _ => true
  | .symlink _ _ => true
  | .dir _ cs => childrenWf cs
  | .other _ => true

def childrenWf : List (Name × Node) → Bool
  | [] => true
  | (n, c) :: rest =>
      !n.isEmpty && !n.contains 47 &&
      rest.all (fun p => !(p.1 == n)) && nodeWf c && childrenWf rest

end

mutual

/-- No device/socket/fifo ("unknown type") node anywhere. -/
def nodeNoOther : Node → Bool
  | .file _ _ _ _ _ _ _ => true
  | .symlink _ _ => true
  | .dir _ cs => childrenNoOther cs
  | .other _ => false

def childrenNoOther : List (Name × Node) → Bool
  | [] => true
  | (_, c) :: rest => nodeNoOther c && childrenNoOther rest

end

/-- The children list reached by descending along a component path. -/
def subtreeAt : List Name → List (Name × Node) → Option (List (Name × Node))
  | [], cs => some cs
  | c :: rest, cs =>
      match alookup c cs with
      | some (.dir _ ccs) => subtreeAt rest ccs
      | _ => none

theorem alookup_mem {β : Type} (k : Name) (v : β) :
    ∀ (m : List (Name × β)), alookup k m = some v → (k, v) ∈ m
  | [], h => by cases h
  | (k2, v2) :: rest, h => by
      rw [alookup_cons] at h
      split at h
      · cases h
        rename_i hk
        subst hk
        exact List.mem_cons_self _ _
      · exact List.mem_cons_of_mem _ (alookup_mem k v rest h)

theorem alookup_of_mem_nodup (k : Name) (v : Node) :
    ∀ (m : List (Name × Node)), (m.map Prod.fst).Nodup → (k, v) ∈ m →
      alookup k m = some v
  | [], _, h => by cases h
  | (k2, v2) :: rest, hnd, h => by
      rw [List.map_cons, List.nodup_cons] at hnd
      rw [alookup_cons]
      rcases List.mem_cons.mp h with hEq | hm
      · cases hEq
        rw [if_pos rfl]
      · split
        · rename_i hk
          subst hk
          exact absurd (List.mem_map_of_mem Prod.fst hm) hnd.1
        · exact alookup_of_mem_nodup k v rest hnd.2 hm

theorem childrenWf_nodupKeys :
    ∀ (cs : List (Name × Node)), childrenWf cs = true →
      (cs.map Prod.fst).Nodup
  | [], _ => List.nodup_nil
  | (n, c) :: rest, h => by
      rw [childrenWf] at h
      simp only [Bool.and_eq_true, List.all_eq_true] at h
      rw [List.map_cons, List.nodup_cons]
      refine ⟨?_, childrenWf_nodupKeys rest h.2⟩
      intro hmem
      obtain ⟨p, hp, hpn⟩ := List.mem_map.mp hmem
      have := h.1.1.2 p hp
      rw [hpn] at this
      simp at this

theorem childrenWf_member :
    ∀ (cs : List (Name × Node)), childrenWf cs = true →
      ∀ (n : Name) (c : Node), (n, c) ∈ cs →
        n ≠ [] ∧ ¬47 ∈ n ∧ nodeWf c = true
  | [], _, n, c, h => by cases h
  | (n1, c1) :: rest, h, n, c, hmem => by
      rw [childrenWf] at h
      simp only [Bool.and_eq_true] at h
      rcases List.mem_cons.mp hmem with hEq | hm
      · cases hEq
        exact ⟨by simpa using h.1.1.1.1, by simpa using h.1.1.1.2, h.1.2⟩
      · exact childrenWf_member rest h.2 n c hm

theorem subtreeAt_wf :
    ∀ (ps : List Name) (T cs : List (Name × Node)), childrenWf T = true →
      subtreeAt ps T = some cs → childrenWf cs = true
  | [], T, cs, hwf, h => by
      rw [subtreeAt] at h
      cases h
      exact hwf
  | c :: rest, T, cs, hwf, h => by
      rw [subtreeAt] at h
      cases hlk : alookup c T with
      | none => rw [hlk] at h; cases h
      | some node =>
          rw [hlk] at h
          cases node with
          | dir sz ccs =>
              have hm := alookup_mem c _ T hlk
              have hw := (childrenWf_member T hwf c _ hm).2.2
              rw [nodeWf] at hw
              exact subtreeAt_wf rest ccs cs hw h
          | file mode ms mf content dev ino nlink => cases h
          | symlink dl t => cases h
          | other sz => cases h

theorem childrenFilesMatch_member (ctt : Nat × Nat → List Nat) :
    ∀ (cs : List (Name × Node)), childrenFilesMatch ctt cs = true →
      ∀ (n : Name) (c : Node), (n, c) ∈ cs → nodeFilesMatch ctt c = true
  | [], _, n, c, h => by cases h
  | (n1, c1) :: rest, h, n, c, hmem => by
      rw [childrenFilesMatch, Bool.and_eq_true] at h
      rcases List.mem_cons.mp hmem with hEq | hm
      · cases hEq; exact h.1
      · exact childrenFilesMatch_member ctt rest h.2 n c hm

theorem subtreeAt_filesMatch (ctt : Nat × Nat → List Nat) :
    ∀ (ps : List Name) (T cs : List (Name × Node)),
      childrenFilesMatch ctt T = true →
      subtreeAt ps T = some cs → childrenFilesMatch ctt cs = true
  | [], T, cs, hfm, h => by
      rw [subtreeAt] at h
      cases h
      exact hfm
  | c :: rest, T, cs, hfm, h => by
      rw [subtreeAt] at h
      cases hlk : alookup c T with
      | none => rw [hlk] at h; cases h
      | some node =>
          rw [hlk] at h
          cases node with
          | dir sz ccs =>
              have hm := alookup_mem c _ T hlk
              have hw := childrenFilesMatch_member ctt T hfm c _ hm
              rw [nodeFilesMatch] at hw
              exact subtreeAt_filesMatch ctt rest ccs cs hw h
          | file mode ms mf content dev ino nlink => cases h
          | symlink dl t => cases h
          | other sz => cases h

theorem childrenNoOther_member :
    ∀ (cs : List (Name × Node)), childrenNoOther cs = true →
      ∀ (n : Name) (c : Node), (n, c) ∈ cs → nodeNoOther c = true
  | [], _, n, c, h => by cases h
  | (n1, c1) :: rest, h, n, c, hmem => by
      rw [childrenNoOther, Bool.and_eq_true] at h
      rcases List.mem_cons.mp hmem with hEq | hm
      · cases hEq; exact h.1
      · exact childrenNoOther_member rest h.2 n c hm

/-! ### Join/split path lemmas -/

theorem joinComps_ne_nil :
    ∀ (ps : List Name), ps ≠ [] → compsWf ps → joinComps ps ≠ []
  | [], h, _ => absurd rfl h
  | p :: rest, _, hwf => by
      rw [joinComps]
      have hp := hwf p (List.mem_cons_self _ _)
      split
      · exact hp.1
      · intro hc
        cases hne : p with
        | nil => exact hp.1 hne
        | cons a r => rw [hne] at hc; cases hc

theorem joinComps_single (p : Name) : joinComps [p] = p := rfl

theorem joinComps_cons_ne (p : Name) (rest : List Name) (h : rest ≠ []) :
    joinComps (p :: rest) = p ++ 47 :: joinComps rest := by
  rw [joinComps, if_neg (by simpa using h)]

theorem joinName_nil (base : Name) : joinName [] base = base := rfl

theorem joinName_ne (rel base : Name) (h : rel ≠ []) :
    joinName rel base = rel ++ 47 :: base := by
  rw [joinName, if_neg (by simpa using h)]

theorem joinName_joinComps (base : Name) :
    ∀ (ps : List Name), compsWf ps →
      joinName (joinComps ps) base = joinComps (ps ++ [base])
  | [], _ => rfl
  | p :: rest, hwf => by
      cases rest with
      | nil =>
          have hp := (hwf p (List.mem_cons_self _ _)).1
          rw [joinComps_single, joinName_ne p base hp,
            List.cons_append, List.nil_append,
            joinComps_cons_ne p [base] (by simp), joinComps_single]
      | cons q rest2 =>
          have hwfr : compsWf (q :: rest2) := fun x hx =>
            hwf x (List.mem_cons_of_mem _ hx)
          have hIH := joinName_joinComps base (q :: rest2) hwfr
          have hjne : joinComps (q :: rest2) ≠ [] :=
            joinComps_ne_nil (q :: rest2) (by simp) hwfr
          rw [joinComps_cons_ne p (q :: rest2) (by simp),
            joinName_ne _ base (by simp),
            List.cons_append,
            joinComps_cons_ne p ((q :: rest2) ++ [base]) (by simp),
            ← hIH, joinName_ne _ base hjne]
          simp [List.append_assoc]

theorem splitName_ne_nil : ∀ (l : Name), splitName l ≠ []
  | [] => by rw [splitName]; simp
  | c :: rest => by
      rw [splitName]
      by_cases hc : c = 47
      · rw [if_pos hc]; simp
      · rw [if_neg hc]
        cases hs : splitName rest with
        | nil => simp
        | cons s ss => simp

theorem splitName_nosep : ∀ (p : Name), ¬47 ∈ p → splitName p = [p]
  | [], _ => rfl
  | c :: rest, h47 => by
      rw [splitName]
      have hc : c ≠ 47 := by
        intro hc
        exact h47 (hc ▸ List.mem_cons_self _ _)
      rw [if_neg hc]
      have hrest := splitName_nosep rest (fun hm => h47 (List.mem_cons_of_mem _ hm))
      rw [hrest]

theorem splitName_append_sep (t : Name) :
    ∀ (p : Name), ¬47 ∈ p → splitName (p ++ 47 :: t) = p :: splitName t
  | [], _ => by
      rw [List.nil_append, splitName, if_pos rfl]
  | c :: p2, h47 => by
      have hc : c ≠ 47 := by
        intro hc
        exact h47 (hc ▸ List.mem_cons_self _ _)
      rw [List.cons_append, splitName, if_neg hc,
        splitName_append_sep t p2 (fun hm => h47 (List.mem_cons_of_mem _ hm))]

theorem splitName_joinComps :
    ∀ (ps : List Name), ps ≠ [] → compsWf ps →
      splitName (joinComps ps) = ps
  | [], h, _ => absurd rfl h
  | p :: rest, _, hwf => by
      have hp := hwf p (List.mem_cons_self _ _)
      cases rest with
      | nil =>
          rw [joinComps_single]
          exact splitName_nosep p hp.2
      | cons q rest2 =>
          have hwfr : compsWf (q :: rest2) := fun x hx =>
            hwf x (List.mem_cons_of_mem _ hx)
          rw [joinComps_cons_ne p (q :: rest2) (by simp),
            splitName_append_sep _ p hp.2,
            splitName_joinComps (q :: rest2) (by simp) hwfr]

theorem subtreeAt_lookupPath (base : Name) (node : Node) :
    ∀ (ps : List Name) (T cs : List (Name × Node)),
      subtreeAt ps T = some cs → alookup base cs = some node →
      lookupPath (ps ++ [base]) T = some node
  | [], T, cs, hsub, hlk => by
      rw [subtreeAt] at hsub
      cases hsub
      rw [List.nil_append, lookupPath, hlk]
      simp
  | c :: rest, T, cs, hsub, hlk => by
      rw [subtreeAt] at hsub
      cases hlkc : alookup c T with
      | none => rw [hlkc] at hsub; cases hsub
      | some n2 =>
          rw [hlkc] at hsub
          cases n2 with
          | dir sz ccs =>
              rw [List.cons_append, lookupPath, hlkc]
              simp only [List.isEmpty_eq_true, List.append_eq_nil, List.cons_ne_nil,
                and_false, if_false]
              exact subtreeAt_lookupPath base node rest ccs cs hsub hlk
          | file mode ms mf content dev ino nlink => cases hsub
          | symlink dl t => cases hsub
          | other sz => cases hsub

theorem subtreeAt_extend (n : Name) (sz : Nat) (ccs : List (Name × Node)) :
    ∀ (ps : List Name) (T cs : List (Name × Node)),
      subtreeAt ps T = some cs → alookup n cs = some (.dir sz ccs) →
      subtreeAt (ps ++ [n]) T = some ccs
  | [], T, cs, hsub, hlk => by
      rw [subtreeAt] at hsub
      cases hsub
      rw [List.nil_append, subtreeAt, hlk]
      rfl
  | c :: rest, T, cs, hsub, hlk => by
      rw [subtreeAt] at hsub
      cases hlkc : alookup c T with
      | none => rw [hlkc] at hsub; cases hsub
      | some n2 =>
          rw [hlkc] at hsub
          cases n2 with
          | dir sz2 ccs2 =>
              rw [List.cons_append, subtreeAt, hlkc]
              exact subtreeAt_extend n sz ccs rest ccs2 cs hsub hlk
          | file mode ms mf content dev ino nlink => cases hsub
          | symlink dl t => cases hsub
          | other sz2 => cases hsub

/-! ### What the writer's entries say about the nodes they describe -/

/-- The kind-specific shape of an entry generated (with
`preserve_mode=True`) from this node. -/
def entryNodeOk (e : MEntry) : Node → Prop
  | .file mode _ _ _ dev ino _ =>
      e.kind = EKind.file ∧ e.mode = some (mode % 512) ∧
      e.dev = dev ∧ e.ino = ino
  | .symlink _ t => e.kind = EKind.link ∧ e.linkTarget = some t
  | .dir _ _ => e.kind = EKind.dir
  | .other _ => False

def entryShapeOk (e : MEntry) (node : Node) : Prop :=
  e.ignore = false ∧ e.optional = false ∧ entryNodeOk e node

/-- An entry correctly placed in the tree: its path denotes an existing
node of the right shape. -/
def placedEntry (T : List (Name × Node)) (e : MEntry) : Prop :=
  ∃ ps base cs node, compsWf (ps ++ [base]) ∧
    e.name = joinComps (ps ++ [base]) ∧
    subtreeAt ps T = some cs ∧ alookup base cs = some node ∧
    entryShapeOk e node

/-- With the `write_lookaside` configuration (`preserve_mode`,
`preserve_time`, no runtime skipping), each entry emitted for a member has
the member's shape and joined path. -/
theorem emitChild_shape (hash : List Nat → String) (rel : Name)
    (siblings : List (Name × Node)) (base : Name) (node : Node)
    (st : WState) :
    ∀ e ∈ entriesOf (emitChild true true false hash rel siblings base node
      st).1, entryShapeOk e node ∧ e.name = joinName rel base := by
  unfold emitChild
  by_cases h1 : joinName rel base = steampipeName ∧ Node.inDirnames node = true
  · rw [if_pos h1]
    intro e he
    cases he
  · rw [if_neg h1, if_neg (by simp)]
    cases node with
    | file mode ms mf content dev ino nlink =>
        intro e he
        rw [entriesOf_append, entriesOf_hardLinkLines, List.nil_append] at he
        simp only [entriesOf, List.filterMap_cons, List.filterMap_nil,
          List.mem_singleton] at he
        subst he
        exact ⟨⟨rfl, rfl, rfl, rfl, rfl, rfl⟩, rfl⟩
    | symlink dl target =>
        intro e he
        simp only [entriesOf, List.filterMap_cons, List.filterMap_nil,
          List.mem_singleton] at he
        subst he
        exact ⟨⟨rfl, rfl, rfl, rfl⟩, rfl⟩
    | dir sz cs =>
        intro e he
        simp only [entriesOf, List.filterMap_cons, List.filterMap_nil,
          List.mem_singleton] at he
        subst he
        exact ⟨⟨rfl, rfl, rfl⟩, rfl⟩
    | other sz =>
        intro e he
        simp only [entriesOf, List.filterMap_cons, List.filterMap_nil] at he
        cases he

theorem emitChildren_good (hash : List Nat → String)
    (T : List (Name × Node)) (hT : childrenWf T = true)
    (ps : List Name) (hps : compsWf ps)
    (siblings : List (Name × Node)) (hsub : subtreeAt ps T = some siblings) :
    ∀ (order : List Name) (st : WState),
      ∀ e ∈ entriesOf (emitChildren true true false hash (joinComps ps)
        siblings order st).1, placedEntry T e
  | [], st => by
      intro e he
      cases he
  | base :: rest, st => by
      rw [emitChildren]
      cases hlk : alookup base siblings with
      | none =>
          exact emitChildren_good hash T hT ps hps siblings hsub rest st
      | some node =>
          intro e he
          rw [entriesOf_append, List.mem_append] at he
          rcases he with he | he
          · obtain ⟨hshape, hname⟩ :=
              emitChild_shape hash (joinComps ps) siblings base node st e he
            have hmem := alookup_mem base node siblings hlk
            have hwl := subtreeAt_wf ps T siblings hT hsub
            have hbw := childrenWf_member siblings hwl base node hmem
            have hcw : compsWf (ps ++ [base]) := by
              intro p hp
              rw [List.mem_append, List.mem_singleton] at hp
              rcases hp with hp | rfl
              · exact hps p hp
              · exact ⟨hbw.1, hbw.2.1⟩
            refine ⟨ps, base, siblings, node, hcw, ?_, hsub, hlk, hshape⟩
            rw [hname, joinName_joinComps base ps hps]
          · exact emitChildren_good hash T hT ps hps siblings hsub rest _ e he

mutual

theorem walkSubs_good (hash : List Nat → String)
    (T : List (Name × Node)) (hT : childrenWf T = true) (removed : List Name) :
    ∀ (l : List (Name × Node)) (ps : List Name) (st : WState),
      compsWf ps →
      (∀ cs2, subtreeAt ps T = some cs2 → ∀ p ∈ l, p ∈ cs2) →
      subtreeAt ps T ≠ none →
      ∀ e ∈ entriesOf (walkSubs true true false hash (joinComps ps) removed
        l st).1, placedEntry T e
  | [], ps, st, _, _, _ => by
      intro e he
      cases he
  | (n, c) :: rest, ps, st, hps, hmemall, hsubne => by
      rw [walkSubs]
      by_cases hmem : n ∈ removed
      · rw [if_pos hmem]
        exact walkSubs_good hash T hT removed rest ps st hps
          (fun cs2 h2 p hp => hmemall cs2 h2 p (List.mem_cons_of_mem _ hp))
          hsubne
      · rw [if_neg hmem]
        intro e he
        rw [entriesOf_append, List.mem_append] at he
        cases hsub : subtreeAt ps T with
        | none => exact absurd hsub hsubne
        | some cs =>
            have hwl := subtreeAt_wf ps T cs hT hsub
            have hmemc := hmemall cs hsub (n, c) (List.mem_cons_self _ _)
            have hlkc : alookup n cs = some c :=
              alookup_of_mem_nodup n c cs (childrenWf_nodupKeys cs hwl) hmemc
            have hnw := childrenWf_member cs hwl n c hmemc
            have hps2 : compsWf (ps ++ [n]) := by
              intro p hp
              rw [List.mem_append, List.mem_singleton] at hp
              rcases hp with hp | rfl
              · exact hps p hp
              · exact ⟨hnw.1, hnw.2.1⟩
            rcases he with he | he
            · have hrel : joinName (joinComps ps) n = joinComps (ps ++ [n]) :=
                joinName_joinComps n ps hps
              rw [hrel] at he
              refine walkNode_good hash T hT c (ps ++ [n]) st hps2 ?_ e he
              intro sz ccs hc
              subst hc
              exact subtreeAt_extend n sz ccs ps T cs hsub hlkc
            · exact walkSubs_good hash T hT removed rest ps _ hps
                (fun cs2 h2 p hp => hmemall cs2 h2 p (List.mem_cons_of_mem _ hp))
                hsubne e he

theorem walkNode_good (hash : List Nat → String)
    (T : List (Name × Node)) (hT : childrenWf T = true) :
    ∀ (c : Node) (ps : List Name) (st : WState),
      compsWf ps →
      (∀ sz ccs, c = .dir sz ccs → subtreeAt ps T = some ccs) →
      ∀ e ∈ entriesOf (walkNode true true false hash (joinComps ps) c st).1,
        placedEntry T e
  | .dir sz cs, ps, st, hps, hdir => by
      rw [walkNode]
      have hsub := hdir sz cs rfl
      intro e he
      rw [entriesOf_append, entriesOf_append, entriesOf_diagLines,
        List.append_nil, List.mem_append] at he
      rcases he with he | he
      · exact emitChildren_good hash T hT ps hps cs hsub _ st e he
      · exact walkSubs_good hash T hT _ cs ps _ hps
          (fun cs2 h2 p hp => by
            rw [hsub] at h2
            cases h2
            exact hp)
          (by rw [hsub]; simp) e he
  | .file mode ms mf content dev ino nlink, ps, st, _, _ => by
      intro e he
      cases he
  | .symlink _ t, ps, st, _, _ => by
      intro e he
      cases he
  | .other sz, ps, st, _, _ => by
      intro e he
      cases he

end

/-- A correctly placed entry whose digest/size fields are canonical passes
the verifier's per-entry check. -/
theorem checkEntry_ok (hash : List Nat → String) (ctt : Nat × Nat → List Nat)
    (T : List (Name × Node)) (hfm : childrenFilesMatch ctt T = true)
    (e : MEntry) (hpl : placedEntry T e)
    (hfe : fileEntryOk ctt hash e) :
    checkEntry hash T e = .ok () := by
  obtain ⟨ps, base, cs, node, hcw, hname, hsub, hlk, hig, hopt, hshape⟩ := hpl
  rw [checkEntry, if_neg (by rw [hig]; simp)]
  have hsplit : splitName e.name = ps ++ [base] := by
    rw [hname]
    exact splitName_joinComps (ps ++ [base]) (by simp) hcw
  rw [hsplit, subtreeAt_lookupPath base node ps T cs hsub hlk]
  cases node with
  | dir sz cs2 =>
      rw [entryNodeOk] at hshape
      rw [hshape]
  | symlink dl t =>
      rw [entryNodeOk] at hshape
      rw [hshape.1, hshape.2]
      simp
  | other sz =>
      rw [entryNodeOk] at hshape
      cases hshape
  | file mode ms mf content dev ino nlink =>
      rw [entryNodeOk] at hshape
      obtain ⟨hkind, hmode, hdev, hino⟩ := hshape
      rw [hkind]
      obtain ⟨hsize, hsha⟩ := hfe hkind
      have hcontent : content = ctt (e.dev, e.ino) := by
        rw [hdev, hino]
        have hfml := subtreeAt_filesMatch ctt ps T cs hfm hsub
        have := childrenFilesMatch_member ctt cs hfml base _
          (alookup_mem base _ cs hlk)
        rw [nodeFilesMatch] at this
        simpa using this
      simp only [checkFileEntry, hmode, hsize, hsha, ← hcontent]
      by_cases hpos : 0 < content.length
      · simp [hpos]
      · simp [hpos]

/-- Fail-fast entry checking succeeds when every entry checks. -/
theorem checkEntries_ok (hash : List Nat → String)
    (T : List (Name × Node)) :
    ∀ (l : List MEntry), (∀ e ∈ l, checkEntry hash T e = .ok ()) →
      checkEntries hash T l = .ok ()
  | [], _ => rfl
  | e :: rest, h => by
      rw [checkEntries, h e (List.mem_cons_self _ _)]
      exact checkEntries_ok hash T rest
        (fun x hx => h x (List.mem_cons_of_mem _ hx))

/-! ### Disk coverage: every on-disk path has a manifest entry -/

mutual

/-- The component paths of a member and everything below it. -/
def nodePaths (pref : List Name) (n : Name) : Node → List (List Name)
  | .dir _ cs => (pref ++ [n]) :: childPaths (pref ++ [n]) cs
  | .file _ _ _ _ _ _ _ => [pref ++ [n]]
  | .symlink _ _ => [pref ++ [n]]
  | .other _ => [pref ++ [n]]

/-- The component paths of every member of a directory, recursively. -/
def childPaths (pref : List Name) : List (Name × Node) → List (List Name)
  | [] => []
  | (n, c) :: rest => nodePaths pref n c ++ childPaths pref rest

end

theorem steampipeName_no_slash : ¬47 ∈ steampipeName := by decide

theorem joinName_eq_steampipe (rel base : Name)
    (h : joinName rel base = steampipeName) :
    rel = [] ∧ base = steampipeName := by
  cases hrel : rel with
  | nil =>
      subst hrel
      exact ⟨rfl, h⟩
  | cons a r =>
      subst hrel
      rw [joinName_ne _ base (by simp)] at h
      have h47 : 47 ∈ steampipeName := by
        rw [← h]
        exact List.mem_append_right _ (List.mem_cons_self _ _)
      exact absurd h47 steampipeName_no_slash

/-- Except for the `steampipe`-skip and unknown-type members, `emitChild`
(with `skip_runtime_files=False`) always emits an entry line for the
member, unflagged. -/
theorem emitChild_covers (hash : List Nat → String) (rel : Name)
    (siblings : List (Name × Node)) (base : Name) (node : Node)
    (st : WState)
    (hsp : ¬(joinName rel base = steampipeName ∧ Node.inDirnames node = true))
    (hno : nodeNoOther node = true) :
    ∃ e ∈ entriesOf (emitChild true true false hash rel siblings base node
      st).1, e.name = joinName rel base ∧ e.ignore = false := by
  unfold emitChild
  rw [if_neg hsp, if_neg (by simp)]
  cases node with
  | file mode ms mf content dev ino nlink =>
      simp only [entriesOf_append, entriesOf_hardLinkLines, List.nil_append]
      exact ⟨_, List.mem_cons_self _ _, rfl, rfl⟩
  | symlink dl target => exact ⟨_, List.mem_cons_self _ _, rfl, rfl⟩
  | dir sz cs => exact ⟨_, List.mem_cons_self _ _, rfl, rfl⟩
  | other sz => rw [nodeNoOther] at hno; cases hno

/-- Every base in the member loop's order that denotes a known-kind,
non-skipped member gets an entry. -/
theorem emitChildren_covers (hash : List Nat → String) (rel : Name)
    (siblings : List (Name × Node)) :
    ∀ (order : List Name) (st : WState) (base : Name) (node : Node),
      base ∈ order → alookup base siblings = some node →
      ¬(joinName rel base = steampipeName ∧ Node.inDirnames node = true) →
      nodeNoOther node = true →
      ∃ e ∈ entriesOf (emitChildren true true false hash rel siblings order
        st).1, e.name = joinName rel base ∧ e.ignore = false
  | [], st, base, node, hmem, _, _, _ => by cases hmem
  | b2 :: rest, st, base, node, hmem, hlk, hsp, hno => by
      rw [emitChildren]
      rcases List.mem_cons.mp hmem with hEq | hmem2
      · subst hEq
        rw [hlk]
        obtain ⟨e, he, hp⟩ := emitChild_covers hash rel siblings base node st
          hsp hno
        exact ⟨e, by rw [entriesOf_append]; exact List.mem_append_left _ he, hp⟩
      · cases hlk2 : alookup b2 siblings with
        | none =>
            exact emitChildren_covers hash rel siblings rest st base node
              hmem2 hlk hsp hno
        | some node2 =>
            obtain ⟨e, he, hp⟩ := emitChildren_covers hash rel siblings rest
              _ base node hmem2 hlk hsp hno
            exact ⟨e, by rw [entriesOf_append]; exact List.mem_append_right _ he,
              hp⟩

/-- The deep paths (strictly below the members) of a member list. -/
def subPaths (pref : List Name) : List (Name × Node) → List (List Name)
  | [] => []
  | (n, .dir _ cs) :: rest => childPaths (pref ++ [n]) cs ++ subPaths pref rest
  | (_, .file _ _ _ _ _ _ _) :: rest => subPaths pref rest
  | (_, .symlink _ _) :: rest => subPaths pref rest
  | (_, .other _) :: rest => subPaths pref rest

theorem childPaths_mem (pref : List Name) :
    ∀ (cs : List (Name × Node)) (qs : List Name), qs ∈ childPaths pref cs →
      (∃ n c, (n, c) ∈ cs ∧ qs = pref ++ [n]) ∨ qs ∈ subPaths pref cs
  | [], qs, h => by cases h
  | (n, c) :: rest, qs, h => by
      rw [childPaths, List.mem_append] at h
      rcases h with h | h
      · cases c with
        | dir sz ccs =>
            rw [nodePaths, List.mem_cons] at h
            rcases h with h | h
            · exact Or.inl ⟨n, _, List.mem_cons_self _ _, h⟩
            · right
              rw [subPaths, List.mem_append]
              exact Or.inl h
        | file mode ms mf content dev ino nlink =>
            rw [nodePaths, List.mem_singleton] at h
            exact Or.inl ⟨n, _, List.mem_cons_self _ _, h⟩
        | symlink dl t =>
            rw [nodePaths, List.mem_singleton] at h
            exact Or.inl ⟨n, _, List.mem_cons_self _ _, h⟩
        | other sz =>
            rw [nodePaths, List.mem_singleton] at h
            exact Or.inl ⟨n, _, List.mem_cons_self _ _, h⟩
      · rcases childPaths_mem pref rest qs h with ⟨n2, c2, hm, hq⟩ | hdeep
        · exact Or.inl ⟨n2, c2, List.mem_cons_of_mem _ hm, hq⟩
        · right
          cases c with
          | dir sz ccs => rw [subPaths, List.mem_append]; exact Or.inr hdeep
          | file mode ms mf content dev ino nlink => rw [subPaths]; exact hdeep
          | symlink dl t => rw [subPaths]; exact hdeep
          | other sz => rw [subPaths]; exact hdeep

/-- A member is never the `steampipe` skip case except at the top level,
where the hypothesis rules it out. -/
theorem no_steampipe_case (T : List (Name × Node))
    (hsp0 : ∀ c2, (steampipeName, c2) ∈ T → Node.inDirnames c2 = false)
    (ps : List Name) (cs : List (Name × Node)) (hps : compsWf ps)
    (hsub : subtreeAt ps T = some cs) (base : Name) (node : Node)
    (hlk : alookup base cs = some node) :
    ¬(joinName (joinComps ps) base = steampipeName ∧
      Node.inDirnames node = true) := by
  rintro ⟨hj, hd⟩
  obtain ⟨hrel, hbase⟩ := joinName_eq_steampipe _ _ hj
  have hps0 : ps = [] := by
    by_contra hne
    exact joinComps_ne_nil ps hne hps hrel
  subst hps0
  rw [subtreeAt] at hsub
  cases hsub
  subst hbase
  have := hsp0 node (alookup_mem _ _ _ hlk)
  rw [this] at hd
  cases hd

/-- With `skip_runtime_files=False` and outside the `steampipe` case, a
member is never removed from `dirnames`. -/
theorem emitChild_removed (hash : List Nat → String) (rel : Name)
    (siblings : List (Name × Node)) (base : Name) (node : Node) (st : WState)
    (hsp : ¬(joinName rel base = steampipeName ∧ Node.inDirnames node = true)) :
    (emitChild true true false hash rel siblings base node st).2.2 = false := by
  unfold emitChild
  rw [if_neg hsp, if_neg (by simp)]
  cases node <;> rfl

theorem emitChildren_removed (hash : List Nat → String) (rel : Name)
    (siblings : List (Name × Node))
    (hsp : ∀ base node, alookup base siblings = some node →
      ¬(joinName rel base = steampipeName ∧ Node.inDirnames node = true)) :
    ∀ (order : List Name) (st : WState),
      (emitChildren true true false hash rel siblings order st).2.2 = []
  | [], st => rfl
  | base :: rest, st => by
      rw [emitChildren]
      cases hlk : alookup base siblings with
      | none => exact emitChildren_removed hash rel siblings hsp rest st
      | some node =>
          show ((if (emitChild true true false hash rel siblings base node
                st).2.2 = true then [base] else []) ++
            (emitChildren true true false hash rel siblings rest
              (emitChild true true false hash rel siblings base node
                st).2.1).2.2) = []
          rw [emitChild_removed hash rel siblings base node st
            (hsp base node hlk)]
          simp only [Bool.false_eq_true, if_false, List.nil_append]
          exact emitChildren_removed hash rel siblings hsp rest _

mutual

theorem walkSubs_covers (hash : List Nat → String)
    (T : List (Name × Node)) (hT : childrenWf T = true)
    (hsp0 : ∀ c2, (steampipeName, c2) ∈ T → Node.inDirnames c2 = false) :
    ∀ (l : List (Name × Node)) (ps : List Name) (st : WState),
      compsWf ps →
      (∀ cs2, subtreeAt ps T = some cs2 → ∀ p ∈ l, p ∈ cs2) →
      subtreeAt ps T ≠ none →
      (∀ p ∈ l, nodeNoOther p.2 = true) →
      ∀ qs ∈ subPaths ps l,
        ∃ e ∈ entriesOf (walkSubs true true false hash (joinComps ps) [] l
          st).1, e.name = joinComps qs ∧ e.ignore = false
  | [], ps, st, _, _, _, _ => by
      intro qs hqs
      cases hqs
  | (n, c) :: rest, ps, st, hps, hmemall, hsubne, hno => by
      rw [walkSubs, if_neg (by simp)]
      intro qs hqs
      cases hsub : subtreeAt ps T with
      | none => exact absurd hsub hsubne
      | some cs =>
          have hmemc := hmemall cs hsub (n, c) (List.mem_cons_self _ _)
          have hwl := subtreeAt_wf ps T cs hT hsub
          have hlkc : alookup n cs = some c :=
            alookup_of_mem_nodup n c cs (childrenWf_nodupKeys cs hwl) hmemc
          have hnw := childrenWf_member cs hwl n c hmemc
          have hps2 : compsWf (ps ++ [n]) := by
            intro p hp
            rw [List.mem_append, List.mem_singleton] at hp
            rcases hp with hp | rfl
            · exact hps p hp
            · exact ⟨hnw.1, hnw.2.1⟩
          have htail : ∀ qs2 ∈ subPaths ps rest,
              ∃ e ∈ entriesOf (walkSubs true true false hash (joinComps ps) []
                rest (walkNode true true false hash
                  (joinName (joinComps ps) n) c st).2).1,
                e.name = joinComps qs2 ∧ e.ignore = false :=
            walkSubs_covers hash T hT hsp0 rest ps _ hps
              (fun cs2 h2 p hp => hmemall cs2 h2 p (List.mem_cons_of_mem _ hp))
              hsubne (fun p hp => hno p (List.mem_cons_of_mem _ hp))
          cases c with
          | dir sz ccs =>
              rw [subPaths, List.mem_append] at hqs
              rcases hqs with hqs | hqs
              · have hrel : joinName (joinComps ps) n = joinComps (ps ++ [n]) :=
                  joinName_joinComps n ps hps
                rw [hrel]
                obtain ⟨e, he, hp⟩ := walkNode_covers hash T hT hsp0
                  (.dir sz ccs) (ps ++ [n]) st hps2
                  (fun sz2 ccs2 hc => by
                    injection hc with h1 h2
                    subst h2
                    exact subtreeAt_extend n sz ccs ps T cs hsub hlkc)
                  (hno (n, .dir sz ccs) (List.mem_cons_self _ _))
                  sz ccs rfl qs hqs
                refine ⟨e, ?_, hp⟩
                rw [entriesOf_append, List.mem_append]
                exact Or.inl he
              · obtain ⟨e, he, hp⟩ := htail qs hqs
                refine ⟨e, ?_, hp⟩
                rw [entriesOf_append, List.mem_append]
                exact Or.inr he
          | file mode ms mf content dev ino nlink =>
              rw [subPaths] at hqs
              obtain ⟨e, he, hp⟩ := htail qs hqs
              refine ⟨e, ?_, hp⟩
              rw [entriesOf_append, List.mem_append]
              exact Or.inr he
          | symlink dl t =>
              rw [subPaths] at hqs
              obtain ⟨e, he, hp⟩ := htail qs hqs
              refine ⟨e, ?_, hp⟩
              rw [entriesOf_append, List.mem_append]
              exact Or.inr he
          | other sz =>
              rw [subPaths] at hqs
              obtain ⟨e, he, hp⟩ := htail qs hqs
              refine ⟨e, ?_, hp⟩
              rw [entriesOf_append, List.mem_append]
              exact Or.inr he

theorem walkNode_covers (hash : List Nat → String)
    (T : List (Name × Node)) (hT : childrenWf T = true)
    (hsp0 : ∀ c2, (steampipeName, c2) ∈ T → Node.inDirnames c2 = false) :
    ∀ (c : Node) (ps : List Name) (st : WState),
      compsWf ps →
      (∀ sz2 ccs2, c = .dir sz2 ccs2 → subtreeAt ps T = some ccs2) →
      nodeNoOther c = true →
      ∀ (sz : Nat) (cs : List (Name × Node)), c = .dir sz cs →
      ∀ qs ∈ childPaths ps cs,
        ∃ e ∈ entriesOf (walkNode true true false hash (joinComps ps) c
          st).1, e.name = joinComps qs ∧ e.ignore = false
  | .dir sz0 cs0, ps, st, hps, hdir, hno => by
      intro sz cs hc qs hqs
      injection hc with h1 h2
      subst h1
      subst h2
      simp only [walkNode]
      have hsub := hdir sz0 cs0 rfl
      have hwl := subtreeAt_wf ps T cs0 hT hsub
      have hnoc : childrenNoOther cs0 = true := by
        rw [nodeNoOther] at hno
        exact hno
      have hspcase : ∀ base node, alookup base cs0 = some node →
          ¬(joinName (joinComps ps) base = steampipeName ∧
            Node.inDirnames node = true) :=
        fun b nd hlk => no_steampipe_case T hsp0 ps cs0 hps hsub b nd hlk
      have hrem := emitChildren_removed hash (joinComps ps) cs0 hspcase
        (sortNames (cs0.map Prod.fst)) st
      rw [hrem]
      rcases childPaths_mem ps cs0 qs hqs with ⟨n, cnode, hm, hq⟩ | hdeep
      · subst hq
        have hlk : alookup n cs0 = some cnode :=
          alookup_of_mem_nodup n cnode cs0 (childrenWf_nodupKeys cs0 hwl) hm
        have hnm : n ∈ sortNames (cs0.map Prod.fst) :=
          (List.perm_insertionSort lexP _).mem_iff.mpr
            (List.mem_map_of_mem Prod.fst hm)
        obtain ⟨e, he, hname, hig⟩ := emitChildren_covers hash (joinComps ps)
          cs0 (sortNames (cs0.map Prod.fst)) st n cnode hnm hlk
          (hspcase n cnode hlk) (childrenNoOther_member cs0 hnoc n cnode hm)
        refine ⟨e, ?_, ?_, hig⟩
        · rw [entriesOf_append, entriesOf_append, List.mem_append]
          exact Or.inl (List.mem_append_left _ he)
        · rw [hname, joinName_joinComps n ps hps]
      · obtain ⟨e, he, hp⟩ := walkSubs_covers hash T hT hsp0 cs0 ps _ hps
          (fun cs2 h2 p hp => by
            rw [hsub] at h2
            cases h2
            exact hp)
          (by rw [hsub]; simp)
          (fun p hp => childrenNoOther_member cs0 hnoc p.1 p.2 hp)
          qs hdeep
        refine ⟨e, ?_, hp⟩
        rw [entriesOf_append, entriesOf_append, List.mem_append]
        exact Or.inr he
  | .file mode ms mf content dev ino nlink, ps, st, _, _, _ => by
      intro sz cs hc
      cases hc
  | .symlink _ t, ps, st, _, _, _ => by
      intro sz cs hc
      cases hc
  | .other sz2, ps, st, _, _, _ => by
      intro sz cs hc
      cases hc

end

theorem mem_nodePaths_self (pref : List Name) (n : Name) (c : Node) :
    (pref ++ [n]) ∈ nodePaths pref n c := by
  cases c with
  | dir sz cs => rw [nodePaths]; exact List.mem_cons_self _ _
  | file mode ms mf content dev ino nlink =>
      rw [nodePaths]; exact List.mem_singleton_self _
  | symlink dl t => rw [nodePaths]; exact List.mem_singleton_self _
  | other sz => rw [nodePaths]; exact List.mem_singleton_self _

mutual

theorem checkDiskNode_ok (hash : List Nat → String) (tbl : List MEntry)
    (hif : ∀ e ∈ tbl, e.ignore = false) :
    ∀ (c : Node) (ps : List Name), compsWf ps → nodeWf c = true →
      (∀ sz ccs, c = .dir sz ccs → ∀ qs ∈ childPaths ps ccs,
        ∃ e ∈ tbl, e.name = joinComps qs) →
      checkDiskNode hash tbl (joinComps ps) c = .ok ()
  | .dir sz cs, ps, hps, hwf, hcov => by
      rw [checkDiskNode]
      rw [nodeWf] at hwf
      exact checkDiskChildren_ok hash tbl hif cs ps hps hwf (hcov sz cs rfl)
  | .file mode ms mf content dev ino nlink, _, _, _, _ => rfl
  | .symlink _ t, _, _, _, _ => rfl
  | .other sz, _, _, _, _ => rfl

theorem checkDiskChildren_ok (hash : List Nat → String) (tbl : List MEntry)
    (hif : ∀ e ∈ tbl, e.ignore = false) :
    ∀ (cs : List (Name × Node)) (ps : List Name), compsWf ps →
      childrenWf cs = true →
      (∀ qs ∈ childPaths ps cs, ∃ e ∈ tbl, e.name = joinComps qs) →
      checkDiskChildren hash tbl (joinComps ps) cs = .ok ()
  | [], ps, _, _, _ => rfl
  | (n, c) :: rest, ps, hps, hwf, hcov => by
      have hnw := childrenWf_member ((n, c) :: rest) hwf n c
        (List.mem_cons_self _ _)
      have hps2 : compsWf (ps ++ [n]) := by
        intro p hp
        rw [List.mem_append, List.mem_singleton] at hp
        rcases hp with hp | rfl
        · exact hps p hp
        · exact ⟨hnw.1, hnw.2.1⟩
      have hwrest : childrenWf rest = true := by
        rw [childrenWf] at hwf
        simp only [Bool.and_eq_true] at hwf
        exact hwf.2
      have hrel : joinName (joinComps ps) n = joinComps (ps ++ [n]) :=
        joinName_joinComps n ps hps
      rw [checkDiskChildren, hrel]
      obtain ⟨e0, he0, hn0⟩ := hcov (ps ++ [n])
        (by rw [childPaths, List.mem_append]
            exact Or.inl (mem_nodePaths_self ps n c))
      cases hfind : tbl.find? (fun e => decide (e.name = joinComps (ps ++ [n])))
        with
      | none =>
          exfalso
          rw [List.find?_eq_none] at hfind
          have := hfind e0 he0
          rw [hn0] at this
          simp at this
      | some e1 =>
          have he1mem := List.mem_of_find?_eq_some hfind
          show (if e1.ignore = true then
              checkDiskChildren hash tbl (joinComps ps) rest
            else
              match checkDiskNode hash tbl (joinComps (ps ++ [n])) c with
              | Except.error er => Except.error er
              | Except.ok _ => checkDiskChildren hash tbl (joinComps ps) rest)
            = Except.ok ()
          rw [if_neg (by rw [hif e1 he1mem]; simp)]
          rw [checkDiskNode_ok hash tbl hif c (ps ++ [n]) hps2 hnw.2.2
            (fun sz ccs hc qs hqs => hcov qs (by
              subst hc
              rw [childPaths, List.mem_append]
              refine Or.inl ?_
              rw [nodePaths, List.mem_cons]
              exact Or.inr hqs))]
          exact checkDiskChildren_ok hash tbl hif rest ps hps hwrest
            (fun qs hqs => hcov qs (by
              rw [childPaths, List.mem_append]
              exact Or.inr hqs))

end

/-- No top-level member named `steampipe` is listed in `os.walk`'s
`dirnames`: neither a directory nor a symbolic link resolving to one. -/
def noTopSteampipe (T : List (Name × Node)) : Bool :=
  T.all (fun p => !(p.1 == steampipeName) || !(Node.inDirnames p.2))

theorem noTopSteampipe_spec (T : List (Name × Node))
    (h : noTopSteampipe T = true) :
    ∀ c, (steampipeName, c) ∈ T → Node.inDirnames c = false := by
  intro c hmem
  rw [noTopSteampipe, List.all_eq_true] at h
  have := h (steampipeName, c) hmem
  simpa using this

/-- A tree whose only top-level member is a `steampipe` directory. -/
def exSteampipe : List (Name × Node) := [(steampipeName, Node.dir 4096 [])]

/-- C1 as stated is false: the writer silently skips a top-level
`steampipe` directory (it is a reserved name), so verifying the unmodified
tree against the freshly generated manifest reports the directory as not
found in the manifest. -/
theorem roundtrip_claim_counterexample :
    verify sampleHash (write_mtree true true false sampleHash exSteampipe).1
        exSteampipe =
      .error (.notInManifest "directory" steampipeName) := rfl

/-- C1 amended: for every well-formed tree (distinct, non-empty, slash-free
member names), with consistent hard links, no device/socket/fifo nodes, and
no top-level entry named `steampipe` that `os.walk` would list among
`dirnames` (a directory, or a symbolic link resolving to a directory),
generating a manifest with `write_mtree` (its default flags) and
immediately verifying the unmodified tree against it succeeds. -/
theorem verify_write_roundtrip (hash : List Nat → String)
    (ctt : Nat × Nat → List Nat) (T : List (Name × Node))
    (hwf : childrenWf T = true)
    (hfm : childrenFilesMatch ctt T = true)
    (hno : childrenNoOther T = true)
    (hsp : noTopSteampipe T = true) :
    verify hash (write_mtree true true false hash T).1 T = .ok () := by
  have hsp2 := noTopSteampipe_spec T hsp
  have hpsnil : compsWf ([] : List Name) := by
    intro p hp
    cases hp
  have hdirT : ∀ sz2 ccs2, Node.dir 4096 T = Node.dir sz2 ccs2 →
      subtreeAt ([] : List Name) T = some ccs2 := by
    intro sz2 ccs2 hc
    injection hc with h1 h2
    subst h2
    rfl
  have hent_eq : entriesOf (write_mtree true true false hash T).1 =
      entriesOf (walkNode true true false hash [] (Node.dir 4096 T) {}).1 :=
    rfl
  have hplaced : ∀ e ∈ entriesOf (write_mtree true true false hash T).1,
      placedEntry T e := by
    intro e he
    rw [hent_eq] at he
    exact walkNode_good hash T hwf (Node.dir 4096 T) [] {} hpsnil hdirT e he
  have hinit : stInv ctt hash {} := by
    refine ⟨?_, ?_, ?_⟩
    · intro fid d hd
      cases hd
    · exact List.nodup_nil
    · intro fid hfid
      cases hfid
  have hfe : ∀ e ∈ entriesOf (write_mtree true true false hash T).1,
      fileEntryOk ctt hash e := by
    intro e he
    rw [hent_eq] at he
    exact (walkNode_invariants true true false hash ctt []
      (Node.dir 4096 T) {} hinit (by rw [nodeFilesMatch]; exact hfm)).2 e he
  have hif : ∀ e ∈ entriesOf (write_mtree true true false hash T).1,
      e.ignore = false := by
    intro e he
    obtain ⟨_, _, _, _, _, _, _, _, hig, _, _⟩ := hplaced e he
    exact hig
  have hentries : checkEntries hash T
      (entriesOf (write_mtree true true false hash T).1) = .ok () :=
    checkEntries_ok hash T _
      (fun e he => checkEntry_ok hash ctt T hfm e (hplaced e he) (hfe e he))
  have hcov : ∀ qs ∈ childPaths [] T,
      ∃ e ∈ entriesOf (write_mtree true true false hash T).1,
        e.name = joinComps qs := by
    intro qs hqs
    obtain ⟨e, he, hname, _⟩ := walkNode_covers hash T hwf hsp2
      (Node.dir 4096 T) [] {} hpsnil hdirT
      (by rw [nodeNoOther]; exact hno) 4096 T rfl qs hqs
    exact ⟨e, by rw [hent_eq]; exact he, hname⟩
  have hdisk : checkDiskChildren hash
      (entriesOf (write_mtree true true false hash T).1) [] T = .ok () :=
    checkDiskChildren_ok hash _ hif T [] hpsnil hwf hcov
  rw [verify, hentries]
  exact hdisk

/-- A tree with a relative symlink, two hard links, an empty file and
nested directories, with its canonical content table. -/
def exRT : List (Name × Node) :=
  [(strName "bin", Node.dir 4096
     [(strName "env", Node.symlink false (strName "../usr/bin/env"))]),
   (strName "usr", Node.dir 4096 [(strName "bin", Node.dir 4096
     [(strName "env", Node.file 493 7 5 [1, 2, 3] 2 44 2),
      (strName "env2", Node.file 493 7 5 [1, 2, 3] 2 44 2)])]),
   (strName "empty", Node.file 420 3 0 [] 2 45 1)]

def cttRT : Nat × Nat → List Nat :=
  fun fid => if fid = (2, 44) then [1, 2, 3] else []

/-- Witness for C1 (amended) at `exRT`. -/
theorem verify_write_roundtrip_witness :
    childrenWf exRT = true ∧ childrenFilesMatch cttRT exRT = true ∧
    childrenNoOther exRT = true ∧ noTopSteampipe exRT = true ∧
    verify sampleHash (write_mtree true true false sampleHash exRT).1 exRT =
      .ok () :=
  ⟨by decide, by decide, by decide, by decide,
    verify_write_roundtrip sampleHash cttRT exRT (by decide) (by decide)
      (by decide) (by decide)⟩

/-! ## The verifier CLI surface (C8) -/

/-- Render a path for a diagnostic (octal-escaped, hence plain ASCII). -/
def nameToString (n : Name) : String :=
  String.mk ((octal_escape n).map Char.ofNat)

/-- Decimal digits of a natural number in base 8, for mode diagnostics. -/
def octalString (n : Nat) : String := String.mk (Nat.toDigits 8 n)

def quoted (s : String) : String := "\"" ++ s ++ "\""

/-- Modelled from the spec: the human-readable reason of each failure,
naming the offending path (wordings follow the expectations of
tests/pressure-vessel/verify.py). -/
def describeVErr : VErr → String
  | .missingEntry p => "required " ++ quoted (nameToString p) ++ " is missing"
  | .kindMismatch p k =>
      quoted (nameToString p) ++ " does not have the expected type " ++
        (match k with
         | .file => "file"
         | .link => "link"
         | .dir => "dir")
  | .modeMismatch p m a =>
      if m &&& 73 ≠ 0 ∧ a &&& 73 = 0 then
        quoted (nameToString p) ++ " should be executable, not mode 0" ++
          octalString a
      else
        quoted (nameToString p) ++ " should have mode 0" ++ octalString m ++
          ", not 0" ++ octalString a
  | .sizeMismatch p s a =>
      quoted (nameToString p) ++ " should have size " ++ toString s ++
        ", not " ++ toString a
  | .contentMismatch p =>
      quoted (nameToString p) ++ " did not have expected contents"
  | .linkMismatch p act exp =>
      quoted (nameToString p) ++ " points to " ++ quoted (nameToString act) ++
        ", expected " ++ quoted (nameToString exp)
  | .notInManifest kw p =>
      kw ++ " " ++ quoted (nameToString p) ++ " not found in manifest"

/-- Modelled from the spec: the observable result of one `pv-verify`
process invocation. -/
structure CliResult where
  exitCode : Nat
  stdout : String
  stderr : String
  deriving DecidableEq

/-- The failure banner: names both the tree path and the manifest path. -/
def verifyFailedBanner (treePath manifestPath : String) (er : VErr) : String :=
  "Verifying " ++ quoted treePath ++ " with " ++ quoted manifestPath ++
    " failed: " ++ describeVErr er

/-- Modelled from the spec: the pv-verify CLI surface — exit code 0 with
empty output when the tree verifies; exit code 1 with the diagnostic on
standard error (standard output always empty) otherwise. -/
def pv_verify_cli (hash : List Nat → String) (m : List MLine)
    (tree : List (Name × Node)) (treePath manifestPath : String) : CliResult :=
  match verify hash m tree with
  | .ok _ => { exitCode := 0, stdout := "", stderr := "" }
  | .error er =>
      { exitCode := 1, stdout := "",
        stderr := verifyFailedBanner treePath manifestPath er }

/-- C8: the verifier CLI exits 0 exactly when the tree verifies and 1 on
any verification failure, standard output is empty in both cases, and on
failure standard error carries the banner naming the manifest path, the
tree path and the specific mismatch. -/
theorem pv_verify_cli_spec (hash : List Nat → String) (m : List MLine)
    (tree : List (Name × Node)) (treePath manifestPath : String) :
    (pv_verify_cli hash m tree treePath manifestPath).stdout = "" ∧
    ((pv_verify_cli hash m tree treePath manifestPath).exitCode = 0 ↔
      verify hash m tree = .ok ()) ∧
    ((pv_verify_cli hash m tree treePath manifestPath).exitCode = 0 ∨
      (pv_verify_cli hash m tree treePath manifestPath).exitCode = 1) ∧
    (∀ er, verify hash m tree = .error er →
      (pv_verify_cli hash m tree treePath manifestPath).exitCode = 1 ∧
      (pv_verify_cli hash m tree treePath manifestPath).stderr =
        verifyFailedBanner treePath manifestPath er) := by
  simp only [pv_verify_cli]
  generalize hv : verify hash m tree = v
  cases v with
  | ok u =>
      cases u
      refine ⟨rfl, by simp [hv], Or.inl rfl, ?_⟩
      intro er her
      exact Except.noConfusion her
  | error er0 =>
      refine ⟨rfl, by simp [hv], Or.inr rfl, ?_⟩
      intro er her
      injection her with h
      subst h
      exact ⟨rfl, rfl⟩

/-- Witness for C8 at a failing scenario: an empty manifest against a tree
with one directory. -/
theorem pv_verify_cli_spec_witness :
    (pv_verify_cli sampleHash [] exSteampipe "tree" "mtree.txt.gz").stdout
      = "" ∧
    ((pv_verify_cli sampleHash [] exSteampipe "tree"
      "mtree.txt.gz").exitCode = 1 ∧
     (pv_verify_cli sampleHash [] exSteampipe "tree" "mtree.txt.gz").stderr =
       verifyFailedBanner "tree" "mtree.txt.gz"
         (.notInManifest "directory" steampipeName)) :=
  ⟨(pv_verify_cli_spec sampleHash [] exSteampipe "tree" "mtree.txt.gz").1,
    (pv_verify_cli_spec sampleHash [] exSteampipe "tree"
      "mtree.txt.gz").2.2.2 (.notInManifest "directory" steampipeName) rfl⟩

/-! ## The runtime build sequence (C9) -/

/-- The four post-extraction steps of `Main.do_container_runtime`
(populate-depot.py lines 1005-1009), in source order. -/
inductive RuntimeStep : Type where
  | prune_runtime
  | write_lookaside
  | minimize_runtime
  | ensure_ref
  deriving DecidableEq

def do_container_runtime_steps : List RuntimeStep :=
  [.prune_runtime, .write_lookaside, .minimize_runtime, .ensure_ref]

/-- `Main.write_lookaside`: write the mtree manifest of `runtime/files`
(with the default `preserve_mode`/`preserve_time`/`skip_runtime_files`
arguments) into `usr-mtree.txt.gz`, appending the literal line
`./.ref type=file size=0 mode=644` when no member whose lowercase form is
`.ref` was seen. -/
def write_lookaside (hash : List Nat → String)
    (filesChildren : List (Name × Node)) : List MLine :=
  let r := write_mtree true true false hash filesChildren
  r.1 ++
    (if alookup refName r.2.lc_names = none then
      [MLine.entry { name := refName, kind := .file, mode := some 420,
                     size := some 0 }]
    else [])

/-- `Main.do_container_runtime` after unpacking and pruning: it calls
`write_lookaside` (whose manifest observes the still-unminimized tree),
then `minimize_runtime`, then `ensure_ref`, propagating any raised
exception. -/
def runtime_pipeline (hash : List Nat → String) (path : String)
    (rootChildren : List (Name × Node)) :
    Except String (List MLine × List (Name × Node)) :=
  let manifest := write_lookaside hash
    (match alookup filesName rootChildren with
     | some (.dir _ fcs) => fcs
     | _ => [])
  match minimize_runtime rootChildren with
  | .error _ => .error "IsADirectoryError"
  | .ok t1 =>
      match ensure_ref path t1 with
      | .error e => .error e
      | .ok t2 => .ok (manifest, t2)

theorem alookup_replaceChild_self (n : Name) (v : Node) :
    ∀ (l : List (Name × Node)), (alookup n l).isSome = true →
      alookup n (replaceChild n v l) = some v
  | [], h => by cases h
  | (n2, c2) :: rest, h => by
      rw [replaceChild]
      by_cases he : n2 = n
      · rw [if_pos he, alookup_cons, if_pos he.symm]
      · rw [if_neg he, alookup_cons, if_neg (fun hc => he hc.symm)]
        refine alookup_replaceChild_self n v rest ?_
        rw [alookup_cons, if_neg (fun hc => he hc.symm)] at h
        exact h

theorem alookup_append_none {β : Type} (k : Name) :
    ∀ (l1 l2 : List (Name × β)), alookup k l1 = none →
      alookup k (l1 ++ l2) = alookup k l2
  | [], l2, _ => rfl
  | (k1, v1) :: rest, l2, h => by
      rw [alookup_cons] at h
      rw [List.cons_append, alookup_cons]
      by_cases he : k = k1
      · rw [if_pos he] at h
        cases h
      · rw [if_neg he] at h
        rw [if_neg he]
        exact alookup_append_none k rest l2 h

theorem alookup_none_not_mem {β : Type} (k : Name) :
    ∀ (l : List (Name × β)), alookup k l = none → ∀ v, (k, v) ∉ l
  | [], _, v, hm => by cases hm
  | (k1, v1) :: rest, h, v, hm => by
      rw [alookup_cons] at h
      rcases List.mem_cons.mp hm with he | hm2
      · rw [if_pos (congrArg Prod.fst he)] at h
        cases h
      · by_cases hk : k = k1
        · rw [if_pos hk] at h
          cases h
        · rw [if_neg hk] at h
          exact alookup_none_not_mem k rest h v hm2

/-- C9: in `do_container_runtime`, minimization runs strictly after
lookaside-manifest generation and strictly before `ensure_ref` (the step
indices in the source sequence), so the manifest records the
pre-minimization contents of `files` while the marker `files/.ref`, added
only afterwards, is present in the final tree and never seen by the
minimizer's deletion pass. -/
theorem do_container_runtime_order (hash : List Nat → String) (path : String)
    (rootChildren : List (Name × Node)) (sz : Nat)
    (fcs cs2 : List (Name × Node))
    (hfiles : alookup filesName rootChildren = some (.dir sz fcs))
    (hmin : minimizeChildren fcs = .ok cs2)
    (hne : cs2 ≠ [])
    (hnoref : alookup refName fcs = none) :
    (do_container_runtime_steps.indexOf .write_lookaside <
       do_container_runtime_steps.indexOf .minimize_runtime ∧
     do_container_runtime_steps.indexOf .minimize_runtime <
       do_container_runtime_steps.indexOf .ensure_ref) ∧
    runtime_pipeline hash path rootChildren =
      .ok (write_lookaside hash fcs,
        replaceChild filesName
          (.dir sz (cs2 ++ [(refName, Node.file 420 0 0 [] 0 0 1)]))
          (replaceChild filesName (.dir sz cs2) rootChildren)) ∧
    alookup filesName
        (replaceChild filesName
          (.dir sz (cs2 ++ [(refName, Node.file 420 0 0 [] 0 0 1)]))
          (replaceChild filesName (.dir sz cs2) rootChildren)) =
      some (.dir sz (cs2 ++ [(refName, Node.file 420 0 0 [] 0 0 1)])) ∧
    alookup refName (cs2 ++ [(refName, Node.file 420 0 0 [] 0 0 1)]) =
      some (Node.file 420 0 0 [] 0 0 1) := by
  have hie : cs2.isEmpty = false := by
    cases cs2 with
    | nil => exact absurd rfl hne
    | cons a l => rfl
  have hmr : minimize_runtime rootChildren =
      .ok (replaceChild filesName (.dir sz cs2) rootChildren) := by
    simp [minimize_runtime, hfiles, hmin, hie]
  have hl1 : alookup filesName
      (replaceChild filesName (.dir sz cs2) rootChildren) =
      some (.dir sz cs2) :=
    alookup_replaceChild_self _ _ _ (by rw [hfiles]; rfl)
  have hrefcs2 : alookup refName cs2 = none := by
    cases hl : alookup refName cs2 with
    | none => rfl
    | some c =>
        exfalso
        obtain ⟨c0, hc0, -⟩ := minimizeChildren_sources fcs cs2 hmin
          (refName, c) (alookup_mem refName c cs2 hl)
        exact alookup_none_not_mem refName fcs hnoref c0 hc0
  have hens : ensure_ref path
      (replaceChild filesName (.dir sz cs2) rootChildren) =
      .ok (replaceChild filesName
        (.dir sz (cs2 ++ [(refName, Node.file 420 0 0 [] 0 0 1)]))
        (replaceChild filesName (.dir sz cs2) rootChildren)) := by
    have h1 := ensure_ref_files_eq path _ sz cs2 hl1
    rw [hrefcs2] at h1
    exact h1
  refine ⟨by decide, ?_, ?_, ?_⟩
  · simp only [runtime_pipeline, hfiles, hmr, hens]
  · exact alookup_replaceChild_self _ _ _ (by rw [hl1]; rfl)
  · rw [alookup_append_none refName cs2 _ hrefcs2, alookup_cons, if_pos rfl]

def exPipeF : List (Name × Node) :=
  [(strName "usr", Node.dir 4096
      [(strName "a", Node.file 493 7 5 [1] 1 50 1)]),
   (strName "z", Node.file 420 3 0 [] 1 51 1)]

def exPipe : List (Name × Node) := [(filesName, Node.dir 4096 exPipeF)]

def exPipeMin : List (Name × Node) :=
  [(strName "usr", Node.dir 4096
      [(strName "a", Node.file 493 7 5 [1] 1 50 1)])]

/-- Witness for C9 at `exPipe`. -/
theorem do_container_runtime_order_witness :
    alookup filesName exPipe = some (Node.dir 4096 exPipeF) ∧
    minimizeChildren exPipeF = .ok exPipeMin ∧
    alookup refName exPipeF = none ∧
    ((do_container_runtime_steps.indexOf .write_lookaside <
        do_container_runtime_steps.indexOf .minimize_runtime ∧
      do_container_runtime_steps.indexOf .minimize_runtime <
        do_container_runtime_steps.indexOf .ensure_ref) ∧
     runtime_pipeline sampleHash "dest" exPipe =
       .ok (write_lookaside sampleHash exPipeF,
         replaceChild filesName
           (.dir 4096 (exPipeMin ++ [(refName, Node.file 420 0 0 [] 0 0 1)]))
           (replaceChild filesName (.dir 4096 exPipeMin) exPipe)) ∧
     alookup filesName
         (replaceChild filesName
           (.dir 4096 (exPipeMin ++ [(refName, Node.file 420 0 0 [] 0 0 1)]))
           (replaceChild filesName (.dir 4096 exPipeMin) exPipe)) =
       some (.dir 4096
         (exPipeMin ++ [(refName, Node.file 420 0 0 [] 0 0 1)])) ∧
     alookup refName (exPipeMin ++ [(refName, Node.file 420 0 0 [] 0 0 1)]) =
       some (Node.file 420 0 0 [] 0 0 1)) :=
  ⟨rfl, rfl, rfl,
    do_container_runtime_order sampleHash "dest" exPipe 4096 exPipeF exPipeMin
      rfl rfl (by intro h; simp [exPipeMin] at h) rfl⟩

end PopulateDepot
